import Mathlib

/-!
Verification of the `Pashugan/trie` Go repository (file `trie.go`, the
variant with the `size` and `nnum` counters).

The Go data model is a pointer tree: each `Node` holds a `map[rune]*Node`
of children and an `interface{}` payload (`nil` meaning "no value").  We
embed it as a mutual inductive: a node is a child list (an association
list from code points to nodes, mirroring the Go map, whose keys are
distinct in every reachable state) together with an optional payload.
Parent pointers are not stored: the upward pruning loop of `Delete` is
realised by the recursive return path of `deleteAux`.

Counters (`size`, `nnum`) are Go `int`s; the values reached by the
operations stay tiny, so `Int` models them exactly.
-/

universe u v

mutual

inductive NodeT (α : Type u) : Type u where
  | mk : ChildList α → Option α → NodeT α

inductive ChildList (α : Type u) : Type u where
  | nil : ChildList α
  | cons : Char → NodeT α → ChildList α → ChildList α

end

/-- Single-motive structural recursion over child lists (the mutual
recursor `ChildList.rec` has two motives, which the `induction` tactic
does not accept). -/
def ChildList.recAux {α : Type u} {motive : ChildList α → Sort v}
    (hnil : motive .nil)
    (hcons : ∀ c n rest, motive rest → motive (.cons c n rest)) :
    ∀ l, motive l
  | .nil => hnil
  | .cons c n rest => hcons c n rest (ChildList.recAux hnil hcons rest)

mutual

/-- Mutual tree induction for nodes, with one motive per type. -/
def NodeT.indN {α : Type u} {P : NodeT α → Prop} {Q : ChildList α → Prop}
    (hmk : ∀ cs d, Q cs → P (.mk cs d)) (hnil : Q .nil)
    (hcons : ∀ c n rest, P n → Q rest → Q (.cons c n rest)) :
    ∀ n, P n
  | .mk cs d => hmk cs d (ChildList.indC hmk hnil hcons cs)

/-- Mutual tree induction for child lists, with one motive per type. -/
def ChildList.indC {α : Type u} {P : NodeT α → Prop} {Q : ChildList α → Prop}
    (hmk : ∀ cs d, Q cs → P (.mk cs d)) (hnil : Q .nil)
    (hcons : ∀ c n rest, P n → Q rest → Q (.cons c n rest)) :
    ∀ l, Q l
  | .nil => hnil
  | .cons c n rest =>
    hcons c n rest (NodeT.indN hmk hnil hcons n) (ChildList.indC hmk hnil hcons rest)

end

namespace ChildList

variable {α : Type u}

/-- Go `node.children[r]`: first binding for the key (the unique one in a
well-formed trie). -/
def lookupC : Char → ChildList α → Option (NodeT α)
  | _, .nil => none
  | c, .cons c' n rest => if c = c' then some n else lookupC c rest

/-- Go `node.children[r] = v`: replace the binding, or append a new one. -/
def setC (c : Char) (v : NodeT α) : ChildList α → ChildList α
  | .nil => .cons c v .nil
  | .cons c' n rest => if c = c' then .cons c v rest else .cons c' n (setC c v rest)

/-- Go `delete(node.children, r)`. -/
def eraseC (c : Char) : ChildList α → ChildList α
  | .nil => .nil
  | .cons c' n rest => if c = c' then rest else .cons c' n (eraseC c rest)

/-- Go `len(node.children) == 0`. -/
def isEmptyC : ChildList α → Bool
  | .nil => true
  | .cons _ _ _ => false

def keysC : ChildList α → List Char
  | .nil => []
  | .cons c _ rest => c :: keysC rest

end ChildList

namespace NodeT

variable {α : Type u}

def children : NodeT α → ChildList α
  | .mk cs _ => cs

def data : NodeT α → Option α
  | .mk _ d => d

/-- Go `(*Node).findNode`: descend one child edge per code point;
`none` as soon as an edge is missing. -/
def findNode : NodeT α → List Char → Option (NodeT α)
  | n, [] => some n
  | n, c :: k =>
    match n.children.lookupC c with
    | none => none
    | some child => child.findNode k

/-- The body of Go `Insert`: walk the key, creating missing nodes
(the `Nat` result counts the creations, Go's `trie.nnum++`), then set
the terminal node's payload. -/
def insertN : NodeT α → List Char → Option α → NodeT α × Nat
  | n, [], d => (.mk n.children d, 0)
  | n, c :: k, d =>
    match n.children.lookupC c with
    | some child =>
      let r := insertN child k d
      (.mk (n.children.setC c r.1) n.data, r.2)
    | none =>
      let r := insertN (.mk .nil none) k d
      (.mk (n.children.setC c r.1) n.data, r.2 + 1)

/-- The body of Go `Delete` below the root: `none` on failure (missing
node or `nil` payload); on success, the replacement subtree (`none` when
the node was pruned away) and the number of nodes pruned (Go's
`trie.nnum--` steps).  The Go loop `for node.data == nil &&
len(node.children) == 0 && node.parent != nil` prunes upward; here each
recursive return level performs one potential pruning step. -/
def deleteAux : NodeT α → List Char → Option (Option (NodeT α) × Nat)
  | n, [] =>
    match n.data with
    | none => none
    | some _ =>
      if n.children.isEmptyC then some (none, 1)
      else some (some (.mk n.children none), 0)
  | n, c :: k =>
    match n.children.lookupC c with
    | none => none
    | some child =>
      match deleteAux child k with
      | none => none
      | some (some child', cnt) => some (some (.mk (n.children.setC c child') n.data), cnt)
      | some (none, cnt) =>
        let cs := n.children.eraseC c
        if cs.isEmptyC && n.data.isNone then some (none, cnt + 1)
        else some (some (.mk cs n.data), cnt)

/-- Go `Delete` at the root: the root has `parent == nil`, so the pruning
loop never removes it. -/
def deleteRoot : NodeT α → List Char → Option (NodeT α × Nat)
  | n, [] =>
    match n.data with
    | none => none
    | some _ => some (.mk n.children none, 0)
  | n, c :: k =>
    match n.children.lookupC c with
    | none => none
    | some child =>
      match deleteAux child k with
      | none => none
      | some (some child', cnt) => some (.mk (n.children.setC c child') n.data, cnt)
      | some (none, cnt) => some (.mk (n.children.eraseC c) n.data, cnt)

end NodeT

mutual

/-- Go `findResults` closure in `HasPrefix`: walk the subtree, emitting
`(accumulated key, payload)` for every node with a non-nil payload. -/
def NodeT.findResults {α : Type u} : NodeT α → List Char → List (List Char × α)
  | .mk cs _, pfx => ChildList.findResultsC cs pfx

def ChildList.findResultsC {α : Type u} : ChildList α → List Char → List (List Char × α)
  | .nil, _ => []
  | .cons c n rest, pfx =>
    (match n.data with
     | some d => [(pfx ++ [c], d)]
     | none => []) ++ NodeT.findResults n (pfx ++ [c]) ++ ChildList.findResultsC rest pfx

end

/-- Go `Trie`: the root node and the two counters. -/
structure Trie (α : Type u) : Type u where
  root : NodeT α
  size : Int
  nnum : Int

namespace Trie

variable {α : Type u}

/-- Go `NewTrie`. -/
def new : Trie α := ⟨.mk .nil none, 0, 1⟩

/-- Go `Insert`: note `trie.size++` is unconditional, exactly as in the
source. -/
def Insert (t : Trie α) (k : List Char) (d : Option α) : Trie α :=
  let r := t.root.insertN k d
  ⟨r.1, t.size + 1, t.nnum + (r.2 : Int)⟩

/-- Go `Search`: `nil` both for a missing node and for a node holding a
`nil` payload. -/
def Search (t : Trie α) (k : List Char) : Option α :=
  match t.root.findNode k with
  | none => none
  | some n => n.data

/-- Go `HasPrefix`: the pair for the prefix node itself when it holds a
payload, then the subtree collection. -/
def HasPrefix (t : Trie α) (pfx : List Char) : List (List Char × α) :=
  match t.root.findNode pfx with
  | none => []
  | some n =>
    (match n.data with
     | some d => [(pfx, d)]
     | none => []) ++ n.findResults pfx

/-- Go `Delete`: the boolean result, with `size--` and the `nnum--`
pruning steps on success. -/
def Delete (t : Trie α) (k : List Char) : Trie α × Bool :=
  match t.root.deleteRoot k with
  | none => (t, false)
  | some (r, cnt) => (⟨r, t.size - 1, t.nnum - (cnt : Int)⟩, true)

/-- Go `Len`. -/
def Len (t : Trie α) : Int := t.size

/-- Go `NodeNum`. -/
def NodeNum (t : Trie α) : Int := t.nnum

end Trie

/-- Search relative to a node: the payload at the end of the path, `none`
when the path or the payload is missing (`Trie.Search` is this at the
root). -/
def NodeT.searchN {α : Type u} (n : NodeT α) (k : List Char) : Option α :=
  match n.findNode k with
  | none => none
  | some m => m.data

mutual

/-- Number of nodes in the subtree holding a non-nil payload, i.e. the
number of keys currently stored below this node. -/
def NodeT.liveCount {α : Type u} : NodeT α → Nat
  | .mk cs d => (if d.isSome then 1 else 0) + ChildList.liveCountC cs

def ChildList.liveCountC {α : Type u} : ChildList α → Nat
  | .nil => 0
  | .cons _ n rest => NodeT.liveCount n + ChildList.liveCountC rest

end

mutual

/-- Total number of nodes in the subtree, the root of the subtree
included. -/
def NodeT.nodeCountN {α : Type u} : NodeT α → Nat
  | .mk cs _ => 1 + ChildList.nodeCountC cs

def ChildList.nodeCountC {α : Type u} : ChildList α → Nat
  | .nil => 0
  | .cons _ n rest => NodeT.nodeCountN n + ChildList.nodeCountC rest

end

mutual

/-- Well-formedness: every child list binds each code point at most once
(the Go `map[rune]*Node` guarantees this in every reachable state). -/
def NodeT.wfN {α : Type u} : NodeT α → Bool
  | .mk cs _ => ChildList.wfC cs

def ChildList.wfC {α : Type u} : ChildList α → Bool
  | .nil => true
  | .cons c n rest =>
    !((ChildList.keysC rest).contains c) && NodeT.wfN n && ChildList.wfC rest

end

/-- A node that the pruning loop of `Delete` would not remove: it holds a
payload or has at least one child. -/
def NodeT.goodN {α : Type u} (n : NodeT α) : Bool :=
  n.data.isSome || !n.children.isEmptyC

mutual

/-- Pruning invariant below a node: every strict descendant holds a
payload or has a child.  Applied to the root it is the spec's structural
invariant (the root itself is exempt). -/
def NodeT.prunedN {α : Type u} : NodeT α → Bool
  | .mk cs _ => ChildList.prunedC cs

def ChildList.prunedC {α : Type u} : ChildList α → Bool
  | .nil => true
  | .cons _ n rest =>
    NodeT.goodN n && NodeT.prunedN n && ChildList.prunedC rest

end

/-- Search through a child list: the payload at the end of a non-empty
path (`none` for the empty path, which addresses the owning node
itself). -/
def ChildList.searchC {α : Type u} (l : ChildList α) : List Char → Option α
  | [] => none
  | c :: q =>
    match ChildList.lookupC c l with
    | none => none
    | some m => m.searchN q

/-- A mutating public operation (Search/HasPrefix/Len/NodeNum are pure
functions of the state and leave it untouched). -/
inductive Op (α : Type u) where
  | ins (k : List Char) (d : Option α)
  | del (k : List Char)

/-- `true` when the operation is a `Delete`, or an `Insert` whose payload
is a real (non-nil) value. -/
def Op.hasPayload {α : Type u} : Op α → Bool
  | .ins _ d => d.isSome
  | .del _ => true

def Trie.step {α : Type u} (t : Trie α) : Op α → Trie α
  | .ins k d => t.Insert k d
  | .del k => (t.Delete k).1

def Trie.run {α : Type u} (t : Trie α) (ops : List (Op α)) : Trie α :=
  ops.foldl Trie.step t

/-- Search through an optional subtree (the shape `deleteAux` returns:
`none` when the subtree was pruned away). -/
def NodeT.searchO {α : Type u} (res : Option (NodeT α)) (k : List Char) : Option α :=
  match res with
  | none => none
  | some n => n.searchN k

/-- Node count of an optional subtree. -/
def NodeT.nodeCountO {α : Type u} : Option (NodeT α) → Nat
  | none => 0
  | some n => n.nodeCountN

/-- The non-empty prefixes of a key: one per code-point position of its
path. -/
def neprefixes : List Char → List (List Char)
  | [] => []
  | c :: k => [c] :: (neprefixes k).map (fun p => c :: p)

/-- The distinct code-point positions across a set of keys: all non-empty
prefixes, shared ones counted once. -/
def positions (ks : List (List Char)) : Finset (List Char) :=
  ks.foldr (fun k s => (neprefixes k).toFinset ∪ s) ∅

/-! ### Basic lemmas on child lists -/

theorem Trie.Search_eq_searchN {α : Type u} (t : Trie α) (k : List Char) :
    t.Search k = t.root.searchN k := rfl

namespace ChildList

variable {α : Type u}

theorem lookupC_setC_self (c : Char) (v : NodeT α) (l : ChildList α) :
    lookupC c (setC c v l) = some v := by
  induction l using ChildList.recAux with
  | hnil => simp [setC, lookupC]
  | hcons c' n rest ih =>
    by_cases h : c = c' <;> simp [setC, lookupC, h, ih]

theorem lookupC_setC_ne (c c' : Char) (v : NodeT α) (l : ChildList α)
    (h : c ≠ c') : lookupC c (setC c' v l) = lookupC c l := by
  induction l using ChildList.recAux with
  | hnil => simp [setC, lookupC, h]
  | hcons c'' n rest ih =>
    by_cases h2 : c' = c'' <;> by_cases h3 : c = c'' <;>
      simp_all [setC, lookupC]

theorem lookupC_eraseC_ne (c c' : Char) (l : ChildList α)
    (h : c ≠ c') : lookupC c (eraseC c' l) = lookupC c l := by
  induction l using ChildList.recAux with
  | hnil => simp [eraseC]
  | hcons c'' n rest ih =>
    by_cases h2 : c' = c'' <;> by_cases h3 : c = c'' <;>
      simp_all [eraseC, lookupC]

theorem lookupC_isSome_iff_keys (c : Char) (l : ChildList α) :
    (lookupC c l).isSome = true ↔ c ∈ keysC l := by
  induction l using ChildList.recAux with
  | hnil => simp [lookupC, keysC]
  | hcons c' n rest ih =>
    by_cases h : c = c' <;> simp [lookupC, keysC, h, ih]

theorem lookupC_eraseC_self (c : Char) (l : ChildList α) (hw : wfC l = true) :
    lookupC c (eraseC c l) = none := by
  induction l using ChildList.recAux with
  | hnil => simp [eraseC, lookupC]
  | hcons c' n rest ih =>
    simp only [wfC, Bool.and_eq_true, Bool.not_eq_true'] at hw
    by_cases h : c = c'
    · subst h
      simp only [eraseC, if_pos rfl]
      rcases Option.eq_none_or_eq_some (lookupC c rest) with h2 | ⟨v, h2⟩
      · exact h2
      · exfalso
        have hm : c ∈ keysC rest := (lookupC_isSome_iff_keys c rest).1 (by simp [h2])
        simp [hm] at hw
    · simp [eraseC, lookupC, h, ih hw.2]

theorem wfC_cons_iff (c : Char) (n : NodeT α) (rest : ChildList α) :
    wfC (.cons c n rest) = true ↔
      c ∉ keysC rest ∧ NodeT.wfN n = true ∧ wfC rest = true := by
  simp [wfC, and_assoc]

theorem lookupC_wfN (c : Char) (l : ChildList α) (n : NodeT α)
    (hw : wfC l = true) (h : lookupC c l = some n) : NodeT.wfN n = true := by
  induction l using ChildList.recAux with
  | hnil => simp [lookupC] at h
  | hcons c' m rest ih =>
    rw [wfC_cons_iff] at hw
    by_cases h2 : c = c'
    · simp [lookupC, h2] at h
      exact h ▸ hw.2.1
    · simp [lookupC, h2] at h
      exact ih hw.2.2 h

theorem keysC_setC_mem (c c' : Char) (v : NodeT α) (l : ChildList α)
    (h : c' ≠ c) : c' ∈ keysC (setC c v l) ↔ c' ∈ keysC l := by
  induction l using ChildList.recAux with
  | hnil => simp [setC, keysC, h]
  | hcons c'' n rest ih =>
    by_cases h2 : c = c'' <;> simp_all [setC, keysC]

theorem wfC_setC (c : Char) (v : NodeT α) (l : ChildList α)
    (hw : wfC l = true) (hv : NodeT.wfN v = true) : wfC (setC c v l) = true := by
  induction l using ChildList.recAux with
  | hnil => simp [setC, wfC, keysC, hv]
  | hcons c' n rest ih =>
    rw [wfC_cons_iff] at hw
    by_cases h : c = c'
    · subst h
      rw [setC, if_pos rfl, wfC_cons_iff]
      exact ⟨hw.1, hv, hw.2.2⟩
    · rw [setC, if_neg h, wfC_cons_iff]
      refine ⟨?_, hw.2.1, ih hw.2.2⟩
      rw [keysC_setC_mem _ _ _ _ (fun hne => h hne.symm)]
      exact hw.1

theorem keysC_eraseC_mem (c c' : Char) (l : ChildList α)
    (h : c' ∈ keysC (eraseC c l)) : c' ∈ keysC l := by
  induction l using ChildList.recAux with
  | hnil => simpa [eraseC] using h
  | hcons c'' n rest ih =>
    by_cases h2 : c = c''
    · simp [eraseC, h2] at h
      simp [keysC, h]
    · simp only [eraseC, if_neg h2, keysC, List.mem_cons] at h ⊢
      rcases h with h | h
      · exact Or.inl h
      · exact Or.inr (ih h)

theorem wfC_eraseC (c : Char) (l : ChildList α) (hw : wfC l = true) :
    wfC (eraseC c l) = true := by
  induction l using ChildList.recAux with
  | hnil => simp [eraseC, wfC]
  | hcons c' n rest ih =>
    rw [wfC_cons_iff] at hw
    by_cases h : c = c'
    · rw [eraseC, if_pos h]
      exact hw.2.2
    · rw [eraseC, if_neg h, wfC_cons_iff]
      exact ⟨fun hm => hw.1 (keysC_eraseC_mem c c' rest hm), hw.2.1, ih hw.2.2⟩

theorem isEmptyC_lookupC (l : ChildList α) (c : Char)
    (h : isEmptyC l = true) : lookupC c l = none := by
  cases l with
  | nil => rfl
  | cons c' n rest => simp [isEmptyC] at h

end ChildList

/-! ### Search and findNode equations -/

namespace NodeT

variable {α : Type u}

theorem findNode_nil (n : NodeT α) : n.findNode [] = some n := rfl

theorem findNode_cons_none (n : NodeT α) {c : Char} (k : List Char)
    (h : n.children.lookupC c = none) : n.findNode (c :: k) = none := by
  cases n with
  | mk cs d => simp only [findNode, children] at h ⊢; rw [h]

theorem findNode_cons_some (n : NodeT α) {c : Char} (k : List Char) {m : NodeT α}
    (h : n.children.lookupC c = some m) : n.findNode (c :: k) = m.findNode k := by
  cases n with
  | mk cs d => simp only [findNode, children] at h ⊢; rw [h]

theorem searchN_nil (n : NodeT α) : n.searchN [] = n.data := rfl

theorem searchN_cons_none (n : NodeT α) {c : Char} (k : List Char)
    (h : n.children.lookupC c = none) : n.searchN (c :: k) = none := by
  simp [searchN, findNode_cons_none n k h]

theorem searchN_cons_some (n : NodeT α) {c : Char} (k : List Char) {m : NodeT α}
    (h : n.children.lookupC c = some m) : n.searchN (c :: k) = m.searchN k := by
  simp only [searchN, findNode_cons_some n k h]

theorem searchN_mk_cons (cs : ChildList α) (d : Option α) (c : Char) (k : List Char) :
    (NodeT.mk cs d).searchN (c :: k) = cs.searchC (c :: k) := by
  rcases h : cs.lookupC c with _ | m
  · rw [searchN_cons_none _ k (by simpa [children] using h)]
    simp [ChildList.searchC, h]
  · rw [searchN_cons_some _ k (by simpa [children] using h)]
    simp [ChildList.searchC, h]

theorem searchN_empty (k : List Char) (d : Option α) :
    (NodeT.mk .nil d).searchN k = (if k = [] then d else none) := by
  cases k with
  | nil => rfl
  | cons c q => rfl

theorem findNode_empty_ne (k : List Char) (d : Option α) (h : k ≠ []) :
    (NodeT.mk .nil d).findNode k = none := by
  cases k with
  | nil => exact absurd rfl h
  | cons c q => rfl

theorem findNode_append (p q : List Char) : ∀ n : NodeT α,
    n.findNode (p ++ q) =
      match n.findNode p with
      | none => none
      | some m => m.findNode q := by
  induction p with
  | nil => intro n; simp [findNode_nil]
  | cons c p ih =>
    intro n
    rcases h : n.children.lookupC c with _ | m
    · simp [findNode_cons_none n _ h]
    · simp [findNode_cons_some n _ h, ih m]

theorem searchN_append (p q : List Char) (n m : NodeT α)
    (h : n.findNode p = some m) : n.searchN (p ++ q) = m.searchN q := by
  simp only [searchN, findNode_append p q n, h]

/-! ### Insert -/

theorem insertN_nil (n : NodeT α) (d : Option α) :
    n.insertN [] d = (.mk n.children d, 0) := rfl

theorem insertN_cons_some (n : NodeT α) {c : Char} (k : List Char) (d : Option α)
    {child : NodeT α} (h : n.children.lookupC c = some child) :
    n.insertN (c :: k) d =
      (.mk (n.children.setC c (child.insertN k d).1) n.data, (child.insertN k d).2) := by
  cases n with
  | mk cs d0 => simp only [insertN, children, data] at h ⊢; rw [h]

theorem insertN_cons_none (n : NodeT α) {c : Char} (k : List Char) (d : Option α)
    (h : n.children.lookupC c = none) :
    n.insertN (c :: k) d =
      (.mk (n.children.setC c ((NodeT.mk .nil none).insertN k d).1) n.data,
        ((NodeT.mk .nil none).insertN k d).2 + 1) := by
  cases n with
  | mk cs d0 => simp only [insertN, children, data] at h ⊢; rw [h]

/-- Last-write-wins: searching any key after an insert reads the inserted
payload at the inserted key and the old payload everywhere else. -/
theorem searchN_insertN (k : List Char) (d : Option α) :
    ∀ (k' : List Char) (n : NodeT α),
      ((n.insertN k d).1).searchN k' = if k' = k then d else n.searchN k' := by
  induction k with
  | nil =>
    intro k' n
    rw [insertN_nil]
    cases k' with
    | nil => simp [searchN_nil, data]
    | cons c' q' =>
      rw [if_neg (List.cons_ne_nil c' q')]
      rcases h : n.children.lookupC c' with _ | m
      · rw [searchN_cons_none (NodeT.mk n.children d) q' (by simpa [children] using h),
          searchN_cons_none n q' h]
      · rw [searchN_cons_some (NodeT.mk n.children d) q' (by simpa [children] using h),
          searchN_cons_some n q' h]
  | cons c kr ih =>
    intro k' n
    rcases h : n.children.lookupC c with _ | child
    · rw [insertN_cons_none n kr d h]
      cases k' with
      | nil =>
        rw [searchN_nil, if_neg (by simp)]
        exact (searchN_nil n).symm
      | cons c' q' =>
        by_cases hc : c' = c
        · subst hc
          rw [searchN_cons_some _ q'
              (by simpa [children] using ChildList.lookupC_setC_self c' _ n.children),
            ih q' _]
          by_cases hq : q' = kr
          · subst hq; rw [if_pos rfl, if_pos rfl]
          · rw [if_neg hq, if_neg (by simpa using hq), searchN_empty,
              searchN_cons_none n q' h]
            simp
        · have hl : (NodeT.mk (n.children.setC c ((NodeT.mk ChildList.nil none).insertN kr d).1) n.data).children.lookupC c' = n.children.lookupC c' := by
            simpa [children] using ChildList.lookupC_setC_ne c' c _ n.children hc
          rw [if_neg (by simp [hc])]
          rcases h2 : n.children.lookupC c' with _ | m
          · rw [searchN_cons_none _ q' (hl.trans h2), searchN_cons_none n q' h2]
          · rw [searchN_cons_some _ q' (hl.trans h2), searchN_cons_some n q' h2]
    · rw [insertN_cons_some n kr d h]
      cases k' with
      | nil =>
        rw [searchN_nil, if_neg (by simp)]
        exact (searchN_nil n).symm
      | cons c' q' =>
        by_cases hc : c' = c
        · subst hc
          rw [searchN_cons_some _ q'
              (by simpa [children] using ChildList.lookupC_setC_self c' _ n.children),
            ih q' child]
          by_cases hq : q' = kr
          · subst hq; rw [if_pos rfl, if_pos rfl]
          · rw [if_neg hq, if_neg (by simpa using hq), searchN_cons_some n q' h]
        · have hl : (NodeT.mk (n.children.setC c (child.insertN kr d).1) n.data).children.lookupC c' = n.children.lookupC c' := by
            simpa [children] using ChildList.lookupC_setC_ne c' c _ n.children hc
          rw [if_neg (by simp [hc])]
          rcases h2 : n.children.lookupC c' with _ | m
          · rw [searchN_cons_none _ q' (hl.trans h2), searchN_cons_none n q' h2]
          · rw [searchN_cons_some _ q' (hl.trans h2), searchN_cons_some n q' h2]

end NodeT

/-! ### Well-formedness and pruning under Insert -/

theorem NodeT.children_mk {α : Type u} (cs : ChildList α) (d : Option α) :
    (NodeT.mk cs d).children = cs := rfl

theorem NodeT.data_mk {α : Type u} (cs : ChildList α) (d : Option α) :
    (NodeT.mk cs d).data = d := rfl

theorem NodeT.wfN_eq {α : Type u} (n : NodeT α) : n.wfN = n.children.wfC := by
  cases n; rfl

theorem NodeT.prunedN_eq {α : Type u} (n : NodeT α) : n.prunedN = n.children.prunedC := by
  cases n; rfl

theorem ChildList.prunedC_cons {α : Type u} (c : Char) (n : NodeT α) (rest : ChildList α) :
    prunedC (.cons c n rest) = (n.goodN && n.prunedN && rest.prunedC) := rfl

theorem ChildList.isEmptyC_setC {α : Type u} (c : Char) (v : NodeT α) (l : ChildList α) :
    (l.setC c v).isEmptyC = false := by
  cases l with
  | nil => rfl
  | cons c' n rest =>
    by_cases h : c = c' <;> simp [setC, h, isEmptyC]

theorem NodeT.wfN_insertN {α : Type u} (k : List Char) (d : Option α) :
    ∀ n : NodeT α, n.wfN = true → ((n.insertN k d).1).wfN = true := by
  induction k with
  | nil =>
    intro n hw
    rw [insertN_nil, wfN_eq]
    rw [wfN_eq] at hw
    exact hw
  | cons c kr ih =>
    intro n hw
    rw [wfN_eq] at hw
    rcases h : n.children.lookupC c with _ | child
    · rw [insertN_cons_none n kr d h, wfN_eq]
      exact ChildList.wfC_setC c _ n.children hw (ih (.mk .nil none) rfl)
    · rw [insertN_cons_some n kr d h, wfN_eq]
      exact ChildList.wfC_setC c _ n.children hw
        (ih child (ChildList.lookupC_wfN c n.children child hw h))

theorem ChildList.lookupC_prunedN {α : Type u} (c : Char) (l : ChildList α) (m : NodeT α)
    (hp : l.prunedC = true) (h : l.lookupC c = some m) :
    m.prunedN = true ∧ m.goodN = true := by
  induction l using ChildList.recAux with
  | hnil => simp [lookupC] at h
  | hcons c' n rest ih =>
    rw [prunedC_cons] at hp
    simp only [Bool.and_eq_true] at hp
    by_cases h2 : c = c'
    · simp [lookupC, h2] at h
      exact ⟨h ▸ hp.1.2, h ▸ hp.1.1⟩
    · simp [lookupC, h2] at h
      exact ih hp.2 h

theorem ChildList.prunedC_setC {α : Type u} (c : Char) (v : NodeT α) (l : ChildList α)
    (hp : l.prunedC = true) (hg : v.goodN = true) (hv : v.prunedN = true) :
    (l.setC c v).prunedC = true := by
  induction l using ChildList.recAux with
  | hnil => simp [setC, prunedC_cons, hg, hv, hp]
  | hcons c' n rest ih =>
    rw [prunedC_cons] at hp
    simp only [Bool.and_eq_true] at hp
    by_cases h : c = c'
    · rw [setC, if_pos h, prunedC_cons]
      simp [hg, hv, hp.2]
    · rw [setC, if_neg h, prunedC_cons]
      simp [hp.1.1, hp.1.2, ih hp.2]

theorem ChildList.prunedC_eraseC {α : Type u} (c : Char) (l : ChildList α)
    (hp : l.prunedC = true) : (l.eraseC c).prunedC = true := by
  induction l using ChildList.recAux with
  | hnil => simpa [eraseC] using hp
  | hcons c' n rest ih =>
    rw [prunedC_cons] at hp
    simp only [Bool.and_eq_true] at hp
    by_cases h : c = c'
    · rw [eraseC, if_pos h]
      exact hp.2
    · rw [eraseC, if_neg h, prunedC_cons]
      simp [hp.1.1, hp.1.2, ih hp.2]

theorem NodeT.goodN_insertN {α : Type u} (k : List Char) (v : α) (n : NodeT α) :
    ((n.insertN k (some v)).1).goodN = true := by
  cases k with
  | nil => rw [insertN_nil]; rfl
  | cons c kr =>
    rcases h : n.children.lookupC c with _ | child
    · rw [insertN_cons_none n kr (some v) h]
      simp [goodN, children, ChildList.isEmptyC_setC]
    · rw [insertN_cons_some n kr (some v) h]
      simp [goodN, children, ChildList.isEmptyC_setC]

theorem NodeT.prunedN_insertN {α : Type u} (k : List Char) (v : α) :
    ∀ n : NodeT α, n.prunedN = true → ((n.insertN k (some v)).1).prunedN = true := by
  induction k with
  | nil =>
    intro n hp
    rw [insertN_nil, prunedN_eq]
    rw [prunedN_eq] at hp
    exact hp
  | cons c kr ih =>
    intro n hp
    rw [prunedN_eq] at hp
    rcases h : n.children.lookupC c with _ | child
    · rw [insertN_cons_none n kr (some v) h, prunedN_eq]
      exact ChildList.prunedC_setC c _ n.children hp
        (goodN_insertN kr v _) (ih (.mk .nil none) rfl)
    · rw [insertN_cons_some n kr (some v) h, prunedN_eq]
      obtain ⟨hcp, _⟩ := ChildList.lookupC_prunedN c n.children child hp h
      exact ChildList.prunedC_setC c _ n.children hp
        (goodN_insertN kr v _) (ih child hcp)

/-! ### Delete equations -/

namespace NodeT

variable {α : Type u}

theorem deleteAux_nil_none (n : NodeT α) (h : n.data = none) :
    n.deleteAux [] = none := by
  cases n with
  | mk cs d => simp only [data] at h; subst h; rfl

theorem deleteAux_nil_empty (n : NodeT α) {v : α} (h : n.data = some v)
    (he : n.children.isEmptyC = true) : n.deleteAux [] = some (none, 1) := by
  cases n with
  | mk cs d =>
    simp only [data] at h
    simp only [children] at he
    subst h
    simp [deleteAux, data, children, he]

theorem deleteAux_nil_branch (n : NodeT α) {v : α} (h : n.data = some v)
    (he : n.children.isEmptyC = false) :
    n.deleteAux [] = some (some (.mk n.children none), 0) := by
  cases n with
  | mk cs d =>
    simp only [data] at h
    simp only [children] at he
    subst h
    simp [deleteAux, data, children, he]

theorem deleteAux_cons_missing (n : NodeT α) {c : Char} (k : List Char)
    (h : n.children.lookupC c = none) : n.deleteAux (c :: k) = none := by
  cases n with
  | mk cs d => simp only [children] at h; simp [deleteAux, children, h]

theorem deleteAux_cons_fail (n : NodeT α) {c : Char} (k : List Char) {child : NodeT α}
    (h : n.children.lookupC c = some child) (h2 : child.deleteAux k = none) :
    n.deleteAux (c :: k) = none := by
  cases n with
  | mk cs d => simp only [children] at h; simp [deleteAux, children, h, h2]

theorem deleteAux_cons_upd (n : NodeT α) {c : Char} (k : List Char) {child : NodeT α}
    {child' : NodeT α} {cnt : Nat} (h : n.children.lookupC c = some child)
    (h2 : child.deleteAux k = some (some child', cnt)) :
    n.deleteAux (c :: k) =
      some (some (.mk (n.children.setC c child') n.data), cnt) := by
  cases n with
  | mk cs d => simp only [children, data] at h ⊢; simp [deleteAux, children, data, h, h2]

theorem deleteAux_cons_prune_all (n : NodeT α) {c : Char} (k : List Char)
    {child : NodeT α} {cnt : Nat} (h : n.children.lookupC c = some child)
    (h2 : child.deleteAux k = some (none, cnt))
    (h3 : ((n.children.eraseC c).isEmptyC && n.data.isNone) = true) :
    n.deleteAux (c :: k) = some (none, cnt + 1) := by
  cases n with
  | mk cs d =>
    simp only [children, data] at h h3
    simp [deleteAux, children, data, h, h2, h3]

theorem deleteAux_cons_prune_keep (n : NodeT α) {c : Char} (k : List Char)
    {child : NodeT α} {cnt : Nat} (h : n.children.lookupC c = some child)
    (h2 : child.deleteAux k = some (none, cnt))
    (h3 : ((n.children.eraseC c).isEmptyC && n.data.isNone) = false) :
    n.deleteAux (c :: k) =
      some (some (.mk (n.children.eraseC c) n.data), cnt) := by
  cases n with
  | mk cs d =>
    simp only [children, data] at h h3 ⊢
    simp [deleteAux, children, data, h, h2, h3]

theorem deleteRoot_nil_none (n : NodeT α) (h : n.data = none) :
    n.deleteRoot [] = none := by
  cases n with
  | mk cs d => simp only [data] at h; subst h; rfl

theorem deleteRoot_nil_some (n : NodeT α) {v : α} (h : n.data = some v) :
    n.deleteRoot [] = some (.mk n.children none, 0) := by
  cases n with
  | mk cs d =>
    simp only [data] at h
    subst h
    simp [deleteRoot, data, children]

theorem deleteRoot_cons_missing (n : NodeT α) {c : Char} (k : List Char)
    (h : n.children.lookupC c = none) : n.deleteRoot (c :: k) = none := by
  cases n with
  | mk cs d => simp only [children] at h; simp [deleteRoot, children, h]

theorem deleteRoot_cons_fail (n : NodeT α) {c : Char} (k : List Char) {child : NodeT α}
    (h : n.children.lookupC c = some child) (h2 : child.deleteAux k = none) :
    n.deleteRoot (c :: k) = none := by
  cases n with
  | mk cs d => simp only [children] at h; simp [deleteRoot, children, h, h2]

theorem deleteRoot_cons_upd (n : NodeT α) {c : Char} (k : List Char) {child : NodeT α}
    {child' : NodeT α} {cnt : Nat} (h : n.children.lookupC c = some child)
    (h2 : child.deleteAux k = some (some child', cnt)) :
    n.deleteRoot (c :: k) = some (.mk (n.children.setC c child') n.data, cnt) := by
  cases n with
  | mk cs d => simp only [children, data] at h ⊢; simp [deleteRoot, children, data, h, h2]

theorem deleteRoot_cons_prune (n : NodeT α) {c : Char} (k : List Char)
    {child : NodeT α} {cnt : Nat} (h : n.children.lookupC c = some child)
    (h2 : child.deleteAux k = some (none, cnt)) :
    n.deleteRoot (c :: k) = some (.mk (n.children.eraseC c) n.data, cnt) := by
  cases n with
  | mk cs d => simp only [children, data] at h ⊢; simp [deleteRoot, children, data, h, h2]

/-- `Delete` fails exactly when the key's node is missing or holds no
payload. -/
theorem deleteAux_eq_none_iff (k : List Char) :
    ∀ n : NodeT α, n.deleteAux k = none ↔ n.searchN k = none := by
  induction k with
  | nil =>
    intro n
    rcases hd : n.data with _ | v
    · simp [deleteAux_nil_none n hd, searchN_nil, hd]
    · rcases he : n.children.isEmptyC with _ | _
      · simp [deleteAux_nil_branch n hd he, searchN_nil, hd]
      · simp [deleteAux_nil_empty n hd he, searchN_nil, hd]
  | cons c k ih =>
    intro n
    rcases h : n.children.lookupC c with _ | child
    · simp [deleteAux_cons_missing n k h, searchN_cons_none n k h]
    · rw [searchN_cons_some n k h]
      rcases h2 : child.deleteAux k with _ | r
      · simp [deleteAux_cons_fail n k h h2, (ih child).1 h2]
      · obtain ⟨res, cnt⟩ := r
        have hs : ¬child.searchN k = none := fun hc => by
          rw [(ih child).2 hc] at h2
          exact Option.noConfusion h2
        rcases res with _ | child'
        · rcases h3 : ((n.children.eraseC c).isEmptyC && n.data.isNone) with _ | _
          · simp [deleteAux_cons_prune_keep n k h h2 h3, hs]
          · simp [deleteAux_cons_prune_all n k h h2 h3, hs]
        · simp [deleteAux_cons_upd n k h h2, hs]

theorem deleteRoot_eq_none_iff (k : List Char) (n : NodeT α) :
    n.deleteRoot k = none ↔ n.searchN k = none := by
  cases k with
  | nil =>
    rcases hd : n.data with _ | v
    · simp [deleteRoot_nil_none n hd, searchN_nil, hd]
    · simp [deleteRoot_nil_some n hd, searchN_nil, hd]
  | cons c k =>
    rcases h : n.children.lookupC c with _ | child
    · simp [deleteRoot_cons_missing n k h, searchN_cons_none n k h]
    · rw [searchN_cons_some n k h]
      rcases h2 : child.deleteAux k with _ | r
      · simp [deleteRoot_cons_fail n k h h2, (deleteAux_eq_none_iff k child).1 h2]
      · obtain ⟨res, cnt⟩ := r
        have hs : ¬child.searchN k = none := fun hc => by
          rw [(deleteAux_eq_none_iff k child).2 hc] at h2
          exact Option.noConfusion h2
        rcases res with _ | child'
        · simp [deleteRoot_cons_prune n k h h2, hs]
        · simp [deleteRoot_cons_upd n k h h2, hs]

end NodeT

namespace NodeT

variable {α : Type u}

/-- Search after a successful delete below the root: the deleted key reads
`none`, every other key is untouched. -/
theorem searchO_deleteAux (k : List Char) :
    ∀ (n : NodeT α) (res : Option (NodeT α)) (cnt : Nat), n.wfN = true →
      n.deleteAux k = some (res, cnt) →
      ∀ k', searchO res k' = if k' = k then none else n.searchN k' := by
  induction k with
  | nil =>
    intro n res cnt hw h k'
    rcases hd : n.data with _ | v
    · rw [deleteAux_nil_none n hd] at h
      exact absurd h (Option.noConfusion)
    · rcases he : n.children.isEmptyC with _ | _
      · rw [deleteAux_nil_branch n hd he] at h
        obtain ⟨rfl, rfl⟩ : some (.mk n.children none) = res ∧ 0 = cnt := by
          simpa using h
        cases k' with
        | nil => simp [searchO, searchN_nil, data]
        | cons c' q' =>
          rw [if_neg (List.cons_ne_nil c' q')]
          rcases h2 : n.children.lookupC c' with _ | m
          · rw [searchO, searchN_cons_none _ q' (by simpa [children] using h2),
              searchN_cons_none n q' h2]
          · rw [searchO, searchN_cons_some _ q' (by simpa [children] using h2),
              searchN_cons_some n q' h2]
      · rw [deleteAux_nil_empty n hd he] at h
        obtain ⟨rfl, rfl⟩ : (none : Option (NodeT α)) = res ∧ 1 = cnt := by
          simpa using h
        cases k' with
        | nil => simp [searchO]
        | cons c' q' =>
          rw [if_neg (List.cons_ne_nil c' q'), searchO,
            searchN_cons_none n q' (ChildList.isEmptyC_lookupC n.children c' he)]
  | cons c k ih =>
    intro n res cnt hw h k'
    have hwc : n.children.wfC = true := by rw [← wfN_eq]; exact hw
    rcases hl : n.children.lookupC c with _ | child
    · rw [deleteAux_cons_missing n k hl] at h
      exact absurd h (Option.noConfusion)
    · have hwchild : child.wfN = true := ChildList.lookupC_wfN c n.children child hwc hl
      rcases h2 : child.deleteAux k with _ | r
      · rw [deleteAux_cons_fail n k hl h2] at h
        exact absurd h (Option.noConfusion)
      · obtain ⟨cres, ccnt⟩ := r
        rcases cres with _ | child'
        · -- the child subtree was pruned away
          rcases h3 : ((n.children.eraseC c).isEmptyC && n.data.isNone) with _ | _
          · rw [deleteAux_cons_prune_keep n k hl h2 h3] at h
            obtain ⟨rfl, rfl⟩ :
                some (NodeT.mk (n.children.eraseC c) n.data) = res ∧ ccnt = cnt := by
              simpa using h
            cases k' with
            | nil => simp [searchO, searchN_nil, data]
            | cons c' q' =>
              by_cases hc : c' = c
              · subst hc
                rw [searchO, searchN_cons_none _ q'
                    (by simpa [children] using
                      ChildList.lookupC_eraseC_self c' n.children hwc)]
                by_cases hq : q' = k
                · rw [if_pos (by rw [hq])]
                · rw [if_neg (by simpa using hq), searchN_cons_some n q' hl]
                  have := ih child none ccnt hwchild h2 q'
                  rw [if_neg hq] at this
                  exact this
              · rw [if_neg (by simp [hc]), searchO]
                rcases h4 : n.children.lookupC c' with _ | m
                · rw [searchN_cons_none _ q'
                      (by simpa [children] using
                        (ChildList.lookupC_eraseC_ne c' c n.children hc).trans h4),
                    searchN_cons_none n q' h4]
                · rw [searchN_cons_some _ q'
                      (by simpa [children] using
                        (ChildList.lookupC_eraseC_ne c' c n.children hc).trans h4),
                    searchN_cons_some n q' h4]
          · rw [deleteAux_cons_prune_all n k hl h2 h3] at h
            obtain ⟨rfl, rfl⟩ : (none : Option (NodeT α)) = res ∧ ccnt + 1 = cnt := by
              simpa using h
            simp only [Bool.and_eq_true, Option.isNone_iff_eq_none] at h3
            cases k' with
            | nil => simp [searchO, searchN_nil, h3.2]
            | cons c' q' =>
              by_cases hc : c' = c
              · subst hc
                rw [searchO]
                by_cases hq : q' = k
                · rw [if_pos (by rw [hq])]
                · rw [if_neg (by simpa using hq), searchN_cons_some n q' hl]
                  have := ih child none ccnt hwchild h2 q'
                  rw [if_neg hq] at this
                  exact this.symm ▸ rfl
              · rw [if_neg (by simp [hc]), searchO, searchN_cons_none n q' ?_]
                have := ChildList.lookupC_eraseC_ne c' c n.children hc
                rw [ChildList.isEmptyC_lookupC _ c' h3.1] at this
                exact this.symm
        · -- the child subtree survived
          rw [deleteAux_cons_upd n k hl h2] at h
          obtain ⟨rfl, rfl⟩ :
              some (NodeT.mk (n.children.setC c child') n.data) = res ∧ ccnt = cnt := by
            simpa using h
          cases k' with
          | nil => simp [searchO, searchN_nil, data]
          | cons c' q' =>
            by_cases hc : c' = c
            · subst hc
              rw [searchO, searchN_cons_some _ q'
                  (by simpa [children] using
                    ChildList.lookupC_setC_self c' child' n.children)]
              by_cases hq : q' = k
              · rw [if_pos (by rw [hq])]
                have := ih child (some child') ccnt hwchild h2 q'
                rw [if_pos hq] at this
                exact this
              · rw [if_neg (by simpa using hq), searchN_cons_some n q' hl]
                have := ih child (some child') ccnt hwchild h2 q'
                rw [if_neg hq] at this
                exact this
            · rw [if_neg (by simp [hc]), searchO]
              rcases h4 : n.children.lookupC c' with _ | m
              · rw [searchN_cons_none _ q'
                    (by simpa [children] using
                      (ChildList.lookupC_setC_ne c' c child' n.children hc).trans h4),
                  searchN_cons_none n q' h4]
              · rw [searchN_cons_some _ q'
                    (by simpa [children] using
                      (ChildList.lookupC_setC_ne c' c child' n.children hc).trans h4),
                  searchN_cons_some n q' h4]

end NodeT

namespace NodeT

variable {α : Type u}

/-- Search after a successful delete at the root. -/
theorem searchN_deleteRoot (k : List Char) (n n' : NodeT α) (cnt : Nat)
    (hw : n.wfN = true) (h : n.deleteRoot k = some (n', cnt)) (k' : List Char) :
    n'.searchN k' = if k' = k then none else n.searchN k' := by
  have hwc : n.children.wfC = true := by rw [← wfN_eq]; exact hw
  cases k with
  | nil =>
    rcases hd : n.data with _ | v
    · rw [deleteRoot_nil_none n hd] at h
      exact absurd h (Option.noConfusion)
    · rw [deleteRoot_nil_some n hd] at h
      obtain ⟨rfl, rfl⟩ : NodeT.mk n.children none = n' ∧ 0 = cnt := by simpa using h
      cases k' with
      | nil => simp [searchN_nil, data]
      | cons c' q' =>
        rw [if_neg (List.cons_ne_nil c' q')]
        rcases h2 : n.children.lookupC c' with _ | m
        · rw [searchN_cons_none _ q' (by simpa [children] using h2),
            searchN_cons_none n q' h2]
        · rw [searchN_cons_some _ q' (by simpa [children] using h2),
            searchN_cons_some n q' h2]
  | cons c k =>
    rcases hl : n.children.lookupC c with _ | child
    · rw [deleteRoot_cons_missing n k hl] at h
      exact absurd h (Option.noConfusion)
    · have hwchild : child.wfN = true := ChildList.lookupC_wfN c n.children child hwc hl
      rcases h2 : child.deleteAux k with _ | r
      · rw [deleteRoot_cons_fail n k hl h2] at h
        exact absurd h (Option.noConfusion)
      · obtain ⟨cres, ccnt⟩ := r
        rcases cres with _ | child'
        · rw [deleteRoot_cons_prune n k hl h2] at h
          obtain ⟨rfl, rfl⟩ :
              NodeT.mk (n.children.eraseC c) n.data = n' ∧ ccnt = cnt := by
            simpa using h
          cases k' with
          | nil => simp [searchN_nil, data]
          | cons c' q' =>
            by_cases hc : c' = c
            · subst hc
              rw [searchN_cons_none _ q'
                  (by simpa [children] using
                    ChildList.lookupC_eraseC_self c' n.children hwc)]
              by_cases hq : q' = k
              · rw [if_pos (by rw [hq])]
              · rw [if_neg (by simpa using hq), searchN_cons_some n q' hl]
                have := searchO_deleteAux k child none ccnt hwchild h2 q'
                rw [if_neg hq] at this
                exact this
            · rw [if_neg (by simp [hc])]
              rcases h4 : n.children.lookupC c' with _ | m
              · rw [searchN_cons_none _ q'
                    (by simpa [children] using
                      (ChildList.lookupC_eraseC_ne c' c n.children hc).trans h4),
                  searchN_cons_none n q' h4]
              · rw [searchN_cons_some _ q'
                    (by simpa [children] using
                      (ChildList.lookupC_eraseC_ne c' c n.children hc).trans h4),
                  searchN_cons_some n q' h4]
        · rw [deleteRoot_cons_upd n k hl h2] at h
          obtain ⟨rfl, rfl⟩ :
              NodeT.mk (n.children.setC c child') n.data = n' ∧ ccnt = cnt := by
            simpa using h
          cases k' with
          | nil => simp [searchN_nil, data]
          | cons c' q' =>
            by_cases hc : c' = c
            · subst hc
              rw [searchN_cons_some _ q'
                  (by simpa [children] using
                    ChildList.lookupC_setC_self c' child' n.children)]
              by_cases hq : q' = k
              · rw [if_pos (by rw [hq])]
                have := searchO_deleteAux k child (some child') ccnt hwchild h2 q'
                rw [if_pos hq] at this
                exact this
              · rw [if_neg (by simpa using hq), searchN_cons_some n q' hl]
                have := searchO_deleteAux k child (some child') ccnt hwchild h2 q'
                rw [if_neg hq] at this
                exact this
            · rw [if_neg (by simp [hc])]
              rcases h4 : n.children.lookupC c' with _ | m
              · rw [searchN_cons_none _ q'
                    (by simpa [children] using
                      (ChildList.lookupC_setC_ne c' c child' n.children hc).trans h4),
                  searchN_cons_none n q' h4]
              · rw [searchN_cons_some _ q'
                    (by simpa [children] using
                      (ChildList.lookupC_setC_ne c' c child' n.children hc).trans h4),
                  searchN_cons_some n q' h4]

/-- Well-formedness survives a delete below the root. -/
theorem wfN_deleteAux (k : List Char) :
    ∀ (n : NodeT α) (res : Option (NodeT α)) (cnt : Nat), n.wfN = true →
      n.deleteAux k = some (res, cnt) →
      ∀ n', res = some n' → n'.wfN = true := by
  induction k with
  | nil =>
    intro n res cnt hw h n' hres
    rcases hd : n.data with _ | v
    · rw [deleteAux_nil_none n hd] at h
      exact absurd h (Option.noConfusion)
    · rcases he : n.children.isEmptyC with _ | _
      · rw [deleteAux_nil_branch n hd he] at h
        obtain ⟨rfl, rfl⟩ : some (.mk n.children none) = res ∧ 0 = cnt := by simpa using h
        obtain rfl : NodeT.mk n.children none = n' := by simpa using hres
        rw [wfN_eq]
        rw [wfN_eq] at hw
        exact hw
      · rw [deleteAux_nil_empty n hd he] at h
        obtain ⟨rfl, rfl⟩ : (none : Option (NodeT α)) = res ∧ 1 = cnt := by simpa using h
        exact absurd hres (Option.noConfusion)
  | cons c k ih =>
    intro n res cnt hw h n' hres
    have hwc : n.children.wfC = true := by rw [← wfN_eq]; exact hw
    rcases hl : n.children.lookupC c with _ | child
    · rw [deleteAux_cons_missing n k hl] at h
      exact absurd h (Option.noConfusion)
    · have hwchild : child.wfN = true := ChildList.lookupC_wfN c n.children child hwc hl
      rcases h2 : child.deleteAux k with _ | r
      · rw [deleteAux_cons_fail n k hl h2] at h
        exact absurd h (Option.noConfusion)
      · obtain ⟨cres, ccnt⟩ := r
        rcases cres with _ | child'
        · rcases h3 : ((n.children.eraseC c).isEmptyC && n.data.isNone) with _ | _
          · rw [deleteAux_cons_prune_keep n k hl h2 h3] at h
            obtain ⟨rfl, rfl⟩ :
                some (NodeT.mk (n.children.eraseC c) n.data) = res ∧ ccnt = cnt := by
              simpa using h
            obtain rfl : NodeT.mk (n.children.eraseC c) n.data = n' := by simpa using hres
            rw [wfN_eq]
            exact ChildList.wfC_eraseC c n.children hwc
          · rw [deleteAux_cons_prune_all n k hl h2 h3] at h
            obtain ⟨rfl, rfl⟩ : (none : Option (NodeT α)) = res ∧ ccnt + 1 = cnt := by
              simpa using h
            exact absurd hres (Option.noConfusion)
        · rw [deleteAux_cons_upd n k hl h2] at h
          obtain ⟨rfl, rfl⟩ :
              some (NodeT.mk (n.children.setC c child') n.data) = res ∧ ccnt = cnt := by
            simpa using h
          obtain rfl : NodeT.mk (n.children.setC c child') n.data = n' := by simpa using hres
          rw [wfN_eq]
          exact ChildList.wfC_setC c child' n.children hwc
            (ih child (some child') ccnt hwchild h2 child' rfl)

/-- Well-formedness survives a delete at the root. -/
theorem wfN_deleteRoot (k : List Char) (n n' : NodeT α) (cnt : Nat)
    (hw : n.wfN = true) (h : n.deleteRoot k = some (n', cnt)) : n'.wfN = true := by
  have hwc : n.children.wfC = true := by rw [← wfN_eq]; exact hw
  cases k with
  | nil =>
    rcases hd : n.data with _ | v
    · rw [deleteRoot_nil_none n hd] at h
      exact absurd h (Option.noConfusion)
    · rw [deleteRoot_nil_some n hd] at h
      obtain ⟨rfl, rfl⟩ : NodeT.mk n.children none = n' ∧ 0 = cnt := by simpa using h
      rw [wfN_eq]
      exact hwc
  | cons c k =>
    rcases hl : n.children.lookupC c with _ | child
    · rw [deleteRoot_cons_missing n k hl] at h
      exact absurd h (Option.noConfusion)
    · have hwchild : child.wfN = true := ChildList.lookupC_wfN c n.children child hwc hl
      rcases h2 : child.deleteAux k with _ | r
      · rw [deleteRoot_cons_fail n k hl h2] at h
        exact absurd h (Option.noConfusion)
      · obtain ⟨cres, ccnt⟩ := r
        rcases cres with _ | child'
        · rw [deleteRoot_cons_prune n k hl h2] at h
          obtain ⟨rfl, rfl⟩ :
              NodeT.mk (n.children.eraseC c) n.data = n' ∧ ccnt = cnt := by simpa using h
          rw [wfN_eq]
          exact ChildList.wfC_eraseC c n.children hwc
        · rw [deleteRoot_cons_upd n k hl h2] at h
          obtain ⟨rfl, rfl⟩ :
              NodeT.mk (n.children.setC c child') n.data = n' ∧ ccnt = cnt := by
            simpa using h
          rw [wfN_eq]
          exact ChildList.wfC_setC c child' n.children hwc
            (wfN_deleteAux k child (some child') ccnt hwchild h2 child' rfl)

end NodeT

namespace NodeT

variable {α : Type u}

/-- The pruning invariant survives a delete below the root, and any
surviving subtree still deserves its place in its parent's child list. -/
theorem prunedN_deleteAux (k : List Char) :
    ∀ (n : NodeT α) (res : Option (NodeT α)) (cnt : Nat), n.prunedN = true →
      n.deleteAux k = some (res, cnt) →
      ∀ n', res = some n' → n'.prunedN = true ∧ n'.goodN = true := by
  induction k with
  | nil =>
    intro n res cnt hp h n' hres
    rcases hd : n.data with _ | v
    · rw [deleteAux_nil_none n hd] at h
      exact absurd h (Option.noConfusion)
    · rcases he : n.children.isEmptyC with _ | _
      · rw [deleteAux_nil_branch n hd he] at h
        obtain ⟨rfl, rfl⟩ : some (.mk n.children none) = res ∧ 0 = cnt := by simpa using h
        obtain rfl : NodeT.mk n.children none = n' := by simpa using hres
        constructor
        · rw [prunedN_eq]
          rw [prunedN_eq] at hp
          exact hp
        · simp [goodN, children_mk, data_mk, he]
      · rw [deleteAux_nil_empty n hd he] at h
        obtain ⟨rfl, rfl⟩ : (none : Option (NodeT α)) = res ∧ 1 = cnt := by simpa using h
        exact absurd hres (Option.noConfusion)
  | cons c k ih =>
    intro n res cnt hp h n' hres
    have hpc : n.children.prunedC = true := by rw [← prunedN_eq]; exact hp
    rcases hl : n.children.lookupC c with _ | child
    · rw [deleteAux_cons_missing n k hl] at h
      exact absurd h (Option.noConfusion)
    · obtain ⟨hpchild, _⟩ := ChildList.lookupC_prunedN c n.children child hpc hl
      rcases h2 : child.deleteAux k with _ | r
      · rw [deleteAux_cons_fail n k hl h2] at h
        exact absurd h (Option.noConfusion)
      · obtain ⟨cres, ccnt⟩ := r
        rcases cres with _ | child'
        · rcases h3 : ((n.children.eraseC c).isEmptyC && n.data.isNone) with _ | _
          · rw [deleteAux_cons_prune_keep n k hl h2 h3] at h
            obtain ⟨rfl, rfl⟩ :
                some (NodeT.mk (n.children.eraseC c) n.data) = res ∧ ccnt = cnt := by
              simpa using h
            obtain rfl : NodeT.mk (n.children.eraseC c) n.data = n' := by simpa using hres
            constructor
            · rw [prunedN_eq]
              exact ChildList.prunedC_eraseC c n.children hpc
            · simp only [Bool.and_eq_false_iff] at h3
              rcases h3 with h3 | h3
              · simp [goodN, children_mk, h3]
              · simp only [Option.isNone_eq_false_iff, Option.isSome_iff_exists] at h3
                obtain ⟨v, hv⟩ := h3
                simp [goodN, data_mk, hv]
          · rw [deleteAux_cons_prune_all n k hl h2 h3] at h
            obtain ⟨rfl, rfl⟩ : (none : Option (NodeT α)) = res ∧ ccnt + 1 = cnt := by
              simpa using h
            exact absurd hres (Option.noConfusion)
        · rw [deleteAux_cons_upd n k hl h2] at h
          obtain ⟨rfl, rfl⟩ :
              some (NodeT.mk (n.children.setC c child') n.data) = res ∧ ccnt = cnt := by
            simpa using h
          obtain rfl : NodeT.mk (n.children.setC c child') n.data = n' := by simpa using hres
          obtain ⟨hp', hg'⟩ := ih child (some child') ccnt hpchild h2 child' rfl
          constructor
          · rw [prunedN_eq]
            exact ChildList.prunedC_setC c child' n.children hpc hg' hp'
          · simp [goodN, children_mk, ChildList.isEmptyC_setC]

/-- The pruning invariant survives a delete at the root. -/
theorem prunedN_deleteRoot (k : List Char) (n n' : NodeT α) (cnt : Nat)
    (hp : n.prunedN = true) (h : n.deleteRoot k = some (n', cnt)) :
    n'.prunedN = true := by
  have hpc : n.children.prunedC = true := by rw [← prunedN_eq]; exact hp
  cases k with
  | nil =>
    rcases hd : n.data with _ | v
    · rw [deleteRoot_nil_none n hd] at h
      exact absurd h (Option.noConfusion)
    · rw [deleteRoot_nil_some n hd] at h
      obtain ⟨rfl, rfl⟩ : NodeT.mk n.children none = n' ∧ 0 = cnt := by simpa using h
      rw [prunedN_eq]
      exact hpc
  | cons c k =>
    rcases hl : n.children.lookupC c with _ | child
    · rw [deleteRoot_cons_missing n k hl] at h
      exact absurd h (Option.noConfusion)
    · obtain ⟨hpchild, _⟩ := ChildList.lookupC_prunedN c n.children child hpc hl
      rcases h2 : child.deleteAux k with _ | r
      · rw [deleteRoot_cons_fail n k hl h2] at h
        exact absurd h (Option.noConfusion)
      · obtain ⟨cres, ccnt⟩ := r
        rcases cres with _ | child'
        · rw [deleteRoot_cons_prune n k hl h2] at h
          obtain ⟨rfl, rfl⟩ :
              NodeT.mk (n.children.eraseC c) n.data = n' ∧ ccnt = cnt := by simpa using h
          rw [prunedN_eq]
          exact ChildList.prunedC_eraseC c n.children hpc
        · rw [deleteRoot_cons_upd n k hl h2] at h
          obtain ⟨rfl, rfl⟩ :
              NodeT.mk (n.children.setC c child') n.data = n' ∧ ccnt = cnt := by
            simpa using h
          obtain ⟨hp', hg'⟩ := prunedN_deleteAux k child (some child') ccnt hpchild h2 child' rfl
          rw [prunedN_eq]
          exact ChildList.prunedC_setC c child' n.children hpc hg' hp'

end NodeT

/-! ### Node counting under Delete -/

namespace ChildList

variable {α : Type u}

theorem nodeCountC_nil : (ChildList.nil : ChildList α).nodeCountC = 0 := rfl

theorem nodeCountC_cons (c : Char) (n : NodeT α) (rest : ChildList α) :
    (ChildList.cons c n rest).nodeCountC = n.nodeCountN + rest.nodeCountC := rfl

theorem isEmptyC_nodeCountC (l : ChildList α) (h : l.isEmptyC = true) :
    l.nodeCountC = 0 := by
  cases l with
  | nil => rfl
  | cons c n rest => simp [isEmptyC] at h

theorem nodeCountC_setC_found (c : Char) (l : ChildList α) (m v : NodeT α)
    (h : l.lookupC c = some m) :
    (l.setC c v).nodeCountC + m.nodeCountN = l.nodeCountC + v.nodeCountN := by
  induction l using ChildList.recAux with
  | hnil => simp [lookupC] at h
  | hcons c' n rest ih =>
    by_cases h2 : c = c'
    · simp only [lookupC, if_pos h2] at h
      obtain rfl : n = m := by simpa using h
      rw [setC, if_pos h2, nodeCountC_cons, nodeCountC_cons]
      omega
    · simp only [lookupC, if_neg h2] at h
      rw [setC, if_neg h2, nodeCountC_cons, nodeCountC_cons]
      have := ih h
      omega

theorem nodeCountC_eraseC_found (c : Char) (l : ChildList α) (m : NodeT α)
    (h : l.lookupC c = some m) :
    (l.eraseC c).nodeCountC + m.nodeCountN = l.nodeCountC := by
  induction l using ChildList.recAux with
  | hnil => simp [lookupC] at h
  | hcons c' n rest ih =>
    by_cases h2 : c = c'
    · simp only [lookupC, if_pos h2] at h
      obtain rfl : n = m := by simpa using h
      rw [eraseC, if_pos h2, nodeCountC_cons]
      omega
    · simp only [lookupC, if_neg h2] at h
      rw [eraseC, if_neg h2, nodeCountC_cons, nodeCountC_cons]
      have := ih h
      omega

end ChildList

namespace NodeT

variable {α : Type u}

theorem nodeCountN_eq (n : NodeT α) : n.nodeCountN = 1 + n.children.nodeCountC := by
  cases n; rfl

/-- A successful delete removes exactly the pruned nodes from the count. -/
theorem nodeCountN_deleteAux (k : List Char) :
    ∀ (n : NodeT α) (res : Option (NodeT α)) (cnt : Nat),
      n.deleteAux k = some (res, cnt) →
      n.nodeCountN = cnt + nodeCountO res := by
  induction k with
  | nil =>
    intro n res cnt h
    rcases hd : n.data with _ | v
    · rw [deleteAux_nil_none n hd] at h
      exact absurd h (Option.noConfusion)
    · rcases he : n.children.isEmptyC with _ | _
      · rw [deleteAux_nil_branch n hd he] at h
        obtain ⟨rfl, rfl⟩ : some (.mk n.children none) = res ∧ 0 = cnt := by simpa using h
        rw [nodeCountN_eq, nodeCountO, nodeCountN_eq, children_mk]
        omega
      · rw [deleteAux_nil_empty n hd he] at h
        obtain ⟨rfl, rfl⟩ : (none : Option (NodeT α)) = res ∧ 1 = cnt := by simpa using h
        rw [nodeCountN_eq, ChildList.isEmptyC_nodeCountC n.children he, nodeCountO]
  | cons c k ih =>
    intro n res cnt h
    rcases hl : n.children.lookupC c with _ | child
    · rw [deleteAux_cons_missing n k hl] at h
      exact absurd h (Option.noConfusion)
    · rcases h2 : child.deleteAux k with _ | r
      · rw [deleteAux_cons_fail n k hl h2] at h
        exact absurd h (Option.noConfusion)
      · obtain ⟨cres, ccnt⟩ := r
        rcases cres with _ | child'
        · have hchild : child.nodeCountN = ccnt + 0 := by
            simpa [nodeCountO] using ih child none ccnt h2
          have herase := ChildList.nodeCountC_eraseC_found c n.children child hl
          rcases h3 : ((n.children.eraseC c).isEmptyC && n.data.isNone) with _ | _
          · rw [deleteAux_cons_prune_keep n k hl h2 h3] at h
            obtain ⟨rfl, rfl⟩ :
                some (NodeT.mk (n.children.eraseC c) n.data) = res ∧ ccnt = cnt := by
              simpa using h
            rw [nodeCountN_eq, nodeCountO, nodeCountN_eq, children_mk]
            omega
          · rw [deleteAux_cons_prune_all n k hl h2 h3] at h
            obtain ⟨rfl, rfl⟩ : (none : Option (NodeT α)) = res ∧ ccnt + 1 = cnt := by
              simpa using h
            simp only [Bool.and_eq_true] at h3
            have hz := ChildList.isEmptyC_nodeCountC _ h3.1
            rw [nodeCountN_eq, nodeCountO]
            omega
        · have hchild : child.nodeCountN = ccnt + child'.nodeCountN := by
            simpa [nodeCountO] using ih child (some child') ccnt h2
          have hset := ChildList.nodeCountC_setC_found c n.children child child' hl
          rw [deleteAux_cons_upd n k hl h2] at h
          obtain ⟨rfl, rfl⟩ :
              some (NodeT.mk (n.children.setC c child') n.data) = res ∧ ccnt = cnt := by
            simpa using h
          rw [nodeCountN_eq, nodeCountO, nodeCountN_eq, children_mk]
          omega

/-- A successful delete at the root: the structural node count drops by
exactly the counter decrement. -/
theorem nodeCountN_deleteRoot (k : List Char) (n n' : NodeT α) (cnt : Nat)
    (h : n.deleteRoot k = some (n', cnt)) :
    n.nodeCountN = cnt + n'.nodeCountN := by
  cases k with
  | nil =>
    rcases hd : n.data with _ | v
    · rw [deleteRoot_nil_none n hd] at h
      exact absurd h (Option.noConfusion)
    · rw [deleteRoot_nil_some n hd] at h
      obtain ⟨rfl, rfl⟩ : NodeT.mk n.children none = n' ∧ 0 = cnt := by simpa using h
      rw [nodeCountN_eq, nodeCountN_eq, children_mk]
      omega
  | cons c k =>
    rcases hl : n.children.lookupC c with _ | child
    · rw [deleteRoot_cons_missing n k hl] at h
      exact absurd h (Option.noConfusion)
    · rcases h2 : child.deleteAux k with _ | r
      · rw [deleteRoot_cons_fail n k hl h2] at h
        exact absurd h (Option.noConfusion)
      · obtain ⟨cres, ccnt⟩ := r
        rcases cres with _ | child'
        · have hchild : child.nodeCountN = ccnt + 0 := by
            simpa [nodeCountO] using nodeCountN_deleteAux k child none ccnt h2
          have herase := ChildList.nodeCountC_eraseC_found c n.children child hl
          rw [deleteRoot_cons_prune n k hl h2] at h
          obtain ⟨rfl, rfl⟩ :
              NodeT.mk (n.children.eraseC c) n.data = n' ∧ ccnt = cnt := by simpa using h
          rw [nodeCountN_eq, nodeCountN_eq, children_mk]
          omega
        · have hchild : child.nodeCountN = ccnt + child'.nodeCountN := by
            simpa [nodeCountO] using nodeCountN_deleteAux k child (some child') ccnt h2
          have hset := ChildList.nodeCountC_setC_found c n.children child child' hl
          rw [deleteRoot_cons_upd n k hl h2] at h
          obtain ⟨rfl, rfl⟩ :
              NodeT.mk (n.children.setC c child') n.data = n' ∧ ccnt = cnt := by
            simpa using h
          rw [nodeCountN_eq, nodeCountN_eq, children_mk]
          omega

end NodeT

/-! ### HasPrefix membership -/

namespace ChildList

variable {α : Type u}

theorem searchC_nil_list (s : List Char) : (ChildList.nil : ChildList α).searchC s = none := by
  cases s with
  | nil => rfl
  | cons c q => rfl

theorem searchC_nil_key (l : ChildList α) : l.searchC [] = none := rfl

theorem searchC_cons_eq (c : Char) (n : NodeT α) (rest : ChildList α) (q : List Char) :
    (ChildList.cons c n rest).searchC (c :: q) = n.searchN q := by
  simp [searchC, lookupC]

theorem searchC_cons_ne (c c' : Char) (n : NodeT α) (rest : ChildList α) (q : List Char)
    (h : c' ≠ c) :
    (ChildList.cons c n rest).searchC (c' :: q) = rest.searchC (c' :: q) := by
  simp only [searchC, lookupC, if_neg h]

theorem lookupC_not_mem (c : Char) (l : ChildList α) (h : c ∉ keysC l) :
    l.lookupC c = none := by
  rcases h2 : l.lookupC c with _ | m
  · rfl
  · exact absurd ((lookupC_isSome_iff_keys c l).1 (by simp [h2])) h

theorem findResultsC_nil (pfx : List Char) :
    (ChildList.nil : ChildList α).findResultsC pfx = [] := rfl

theorem findResultsC_cons (c : Char) (n : NodeT α) (rest : ChildList α) (pfx : List Char) :
    (ChildList.cons c n rest).findResultsC pfx =
      (match n.data with
       | some d => [(pfx ++ [c], d)]
       | none => []) ++ n.findResults (pfx ++ [c]) ++ rest.findResultsC pfx := rfl

end ChildList

namespace NodeT

variable {α : Type u}

theorem findResults_mk (cs : ChildList α) (d : Option α) (pfx : List Char) :
    (NodeT.mk cs d).findResults pfx = cs.findResultsC pfx := rfl

theorem searchN_ne_nil (n : NodeT α) (s : List Char) (h : s ≠ []) :
    n.searchN s = n.children.searchC s := by
  cases n with
  | mk cs d =>
    cases s with
    | nil => exact absurd rfl h
    | cons c q => rw [searchN_mk_cons, children_mk]

/-- Bridge from the child-list collection property to the node-level one:
the node's own payload is not collected by `findResults`, so only
non-empty suffixes appear. -/
theorem node_results_of_list (cs : ChildList α) (d : Option α)
    (hQ : cs.wfC = true → ∀ (pfx k : List Char) (v : α),
      ((k, v) ∈ cs.findResultsC pfx ↔ ∃ s, k = pfx ++ s ∧ cs.searchC s = some v)) :
    (NodeT.mk cs d).wfN = true → ∀ (pfx k : List Char) (v : α),
      ((k, v) ∈ (NodeT.mk cs d).findResults pfx ↔
        ∃ s, s ≠ [] ∧ k = pfx ++ s ∧ (NodeT.mk cs d).searchN s = some v) := by
  intro hw pfx k v
  have hwc : cs.wfC = true := by rw [wfN_eq, children_mk] at hw; exact hw
  rw [findResults_mk, hQ hwc pfx k v]
  constructor
  · rintro ⟨s, rfl, hs⟩
    refine ⟨s, ?_, rfl, ?_⟩
    · rintro rfl
      rw [ChildList.searchC_nil_key] at hs
      exact Option.noConfusion hs
    · rw [searchN_ne_nil _ s ?_, children_mk]
      · exact hs
      · rintro rfl
        rw [ChildList.searchC_nil_key] at hs
        exact Option.noConfusion hs
  · rintro ⟨s, hne, rfl, hs⟩
    refine ⟨s, rfl, ?_⟩
    rw [searchN_ne_nil _ s hne, children_mk] at hs
    exact hs

/-- The pairs `findResults` collects from a child list are exactly the
stored keys strictly below the owning node, with their payloads. -/
theorem mem_findResultsC (l : ChildList α) :
    l.wfC = true → ∀ (pfx k : List Char) (v : α),
      ((k, v) ∈ l.findResultsC pfx ↔ ∃ s, k = pfx ++ s ∧ l.searchC s = some v) := by
  refine ChildList.indC
    (P := fun n => n.wfN = true → ∀ (pfx k : List Char) (v : α),
      ((k, v) ∈ n.findResults pfx ↔
        ∃ s, s ≠ [] ∧ k = pfx ++ s ∧ n.searchN s = some v))
    (Q := fun l => l.wfC = true → ∀ (pfx k : List Char) (v : α),
      ((k, v) ∈ l.findResultsC pfx ↔ ∃ s, k = pfx ++ s ∧ l.searchC s = some v))
    (fun cs d hQ => node_results_of_list cs d hQ) ?_ ?_ l
  · intro _ pfx k v
    rw [ChildList.findResultsC_nil]
    simp [ChildList.searchC_nil_list]
  · intro c n rest hP hQ hw pfx k v
    rw [ChildList.wfC_cons_iff] at hw
    obtain ⟨hmem, hwn, hwr⟩ := hw
    rw [ChildList.findResultsC_cons]
    simp only [List.mem_append]
    constructor
    · rintro (((hh : (k, v) ∈ _) | hm) | hr)
      · rcases hd : n.data with _ | d0
        · rw [hd] at hh
          simp at hh
        · rw [hd] at hh
          simp only [List.mem_singleton, Prod.mk.injEq] at hh
          refine ⟨[c], hh.1.symm ▸ rfl, ?_⟩
          rw [ChildList.searchC_cons_eq, searchN_nil, hd, hh.2]
      · obtain ⟨s, hne, rfl, hs⟩ := (hP hwn (pfx ++ [c]) k v).1 hm
        refine ⟨c :: s, by simp, ?_⟩
        rw [ChildList.searchC_cons_eq]
        exact hs
      · obtain ⟨s, rfl, hs⟩ := (hQ hwr pfx k v).1 hr
        cases s with
        | nil =>
          rw [ChildList.searchC_nil_key] at hs
          exact Option.noConfusion hs
        | cons c' q =>
          have hcc : c' ≠ c := by
            rintro rfl
            rw [ChildList.searchC, ChildList.lookupC_not_mem c' rest hmem] at hs
            exact Option.noConfusion hs
          refine ⟨c' :: q, rfl, ?_⟩
          rw [ChildList.searchC_cons_ne c c' n rest q hcc]
          exact hs
    · rintro ⟨s, rfl, hs⟩
      cases s with
      | nil =>
        rw [ChildList.searchC_nil_key] at hs
        exact Option.noConfusion hs
      | cons c' q =>
        by_cases hcc : c' = c
        · subst hcc
          rw [ChildList.searchC_cons_eq] at hs
          cases q with
          | nil =>
            rw [searchN_nil] at hs
            refine Or.inl (Or.inl ?_)
            rw [hs]
            simp
          | cons c2 q2 =>
            refine Or.inl (Or.inr ?_)
            exact (hP hwn (pfx ++ [c']) _ v).2 ⟨c2 :: q2, by simp, by simp, hs⟩
        · rw [ChildList.searchC_cons_ne c c' n rest q hcc] at hs
          exact Or.inr ((hQ hwr pfx _ v).2 ⟨c' :: q, rfl, hs⟩)

/-- Node-level version of `mem_findResultsC`. -/
theorem mem_findResults (n : NodeT α) (hw : n.wfN = true) (pfx k : List Char) (v : α) :
    (k, v) ∈ n.findResults pfx ↔
      ∃ s, s ≠ [] ∧ k = pfx ++ s ∧ n.searchN s = some v := by
  cases n with
  | mk cs d =>
    exact node_results_of_list cs d (fun hwc => mem_findResultsC cs hwc) hw pfx k v

end NodeT

theorem NodeT.findNode_wfN {α : Type u} (p : List Char) :
    ∀ n m : NodeT α, n.wfN = true → n.findNode p = some m → m.wfN = true := by
  induction p with
  | nil =>
    intro n m hw h
    obtain rfl : n = m := by simpa [NodeT.findNode_nil] using h
    exact hw
  | cons c q ih =>
    intro n m hw h
    rcases hl : n.children.lookupC c with _ | child
    · rw [NodeT.findNode_cons_none n q hl] at h
      exact absurd h (Option.noConfusion)
    · rw [NodeT.findNode_cons_some n q hl] at h
      exact ih child m
        (ChildList.lookupC_wfN c n.children child
          (by rw [← NodeT.wfN_eq]; exact hw) hl) h

/-! ### Trie-level equations and invariants -/

namespace Trie

variable {α : Type u}

theorem Insert_root (t : Trie α) (k : List Char) (d : Option α) :
    (t.Insert k d).root = (t.root.insertN k d).1 := rfl

theorem Insert_size (t : Trie α) (k : List Char) (d : Option α) :
    (t.Insert k d).size = t.size + 1 := rfl

theorem Insert_nnum (t : Trie α) (k : List Char) (d : Option α) :
    (t.Insert k d).nnum = t.nnum + ((t.root.insertN k d).2 : Int) := rfl

theorem Delete_fail (t : Trie α) (k : List Char)
    (h : t.root.deleteRoot k = none) : t.Delete k = (t, false) := by
  simp [Delete, h]

theorem Delete_succ (t : Trie α) (k : List Char) {r : NodeT α} {cnt : Nat}
    (h : t.root.deleteRoot k = some (r, cnt)) :
    t.Delete k = (⟨r, t.size - 1, t.nnum - (cnt : Int)⟩, true) := by
  simp [Delete, h]

/-- The boolean result of `Delete` is `true` exactly when `Search` finds
a value. -/
theorem Delete_snd_iff (t : Trie α) (k : List Char) :
    (t.Delete k).2 = true ↔ t.Search k ≠ none := by
  rw [Search_eq_searchN]
  rcases h : t.root.deleteRoot k with _ | r
  · rw [Delete_fail t k h]
    simpa using (NodeT.deleteRoot_eq_none_iff k t.root).1 h
  · obtain ⟨n', cnt⟩ := r
    rw [Delete_succ t k h]
    simp only [true_iff]
    intro hs
    rw [(NodeT.deleteRoot_eq_none_iff k t.root).2 hs] at h
    exact Option.noConfusion h

theorem run_nil (t : Trie α) : t.run [] = t := rfl

theorem run_cons (t : Trie α) (op : Op α) (ops : List (Op α)) :
    t.run (op :: ops) = (t.step op).run ops := rfl

theorem run_append (t : Trie α) (ops₁ ops₂ : List (Op α)) :
    t.run (ops₁ ++ ops₂) = (t.run ops₁).run ops₂ := by
  simp [run, List.foldl_append]

theorem wfN_new : (Trie.new (α := α)).root.wfN = true := rfl

theorem prunedN_new : (Trie.new (α := α)).root.prunedN = true := rfl

theorem wfN_step (t : Trie α) (op : Op α) (hw : t.root.wfN = true) :
    (t.step op).root.wfN = true := by
  cases op with
  | ins k d => exact NodeT.wfN_insertN k d t.root hw
  | del k =>
    rcases h : t.root.deleteRoot k with _ | r
    · rw [step, Delete_fail t k h]
      exact hw
    · obtain ⟨n', cnt⟩ := r
      rw [step, Delete_succ t k h]
      exact NodeT.wfN_deleteRoot k t.root n' cnt hw h

theorem wfN_run (ops : List (Op α)) :
    ∀ t : Trie α, t.root.wfN = true → (t.run ops).root.wfN = true := by
  induction ops with
  | nil => intro t hw; exact hw
  | cons op ops ih =>
    intro t hw
    rw [run_cons]
    exact ih _ (wfN_step t op hw)

theorem prunedN_step (t : Trie α) (op : Op α) (hop : op.hasPayload = true)
    (hp : t.root.prunedN = true) : (t.step op).root.prunedN = true := by
  cases op with
  | ins k d =>
    obtain ⟨v, rfl⟩ : ∃ v, d = some v := by
      cases d with
      | none => simp [Op.hasPayload] at hop
      | some v => exact ⟨v, rfl⟩
    exact NodeT.prunedN_insertN k v t.root hp
  | del k =>
    rcases h : t.root.deleteRoot k with _ | r
    · rw [step, Delete_fail t k h]
      exact hp
    · obtain ⟨n', cnt⟩ := r
      rw [step, Delete_succ t k h]
      exact NodeT.prunedN_deleteRoot k t.root n' cnt hp h

theorem prunedN_run (ops : List (Op α)) :
    ∀ t : Trie α, (∀ op ∈ ops, op.hasPayload = true) → t.root.prunedN = true →
      (t.run ops).root.prunedN = true := by
  induction ops with
  | nil => intro t _ hp; exact hp
  | cons op ops ih =>
    intro t hall hp
    rw [run_cons]
    exact ih _ (fun o ho => hall o (List.mem_cons_of_mem op ho))
      (prunedN_step t op (hall op (List.mem_cons_self op ops)) hp)

theorem HasPrefix_missing (t : Trie α) (p : List Char)
    (h : t.root.findNode p = none) : t.HasPrefix p = [] := by
  simp [HasPrefix, h]

theorem HasPrefix_found (t : Trie α) (p : List Char) {m : NodeT α}
    (h : t.root.findNode p = some m) :
    t.HasPrefix p =
      (match m.data with
       | some d => [(p, d)]
       | none => []) ++ m.findResults p := by
  simp [HasPrefix, h]

theorem Search_found (t : Trie α) (p : List Char) {m : NodeT α}
    (h : t.root.findNode p = some m) : t.Search p = m.data := by
  simp [Search, h]

/-- The mapping `HasPrefix` returns contains exactly the stored keys that
extend the prefix, each with its current value. -/
theorem mem_HasPrefix (t : Trie α) (hw : t.root.wfN = true) (p k : List Char) (v : α) :
    (k, v) ∈ t.HasPrefix p ↔ p <+: k ∧ t.Search k = some v := by
  rcases h : t.root.findNode p with _ | m
  · rw [HasPrefix_missing t p h]
    simp only [List.not_mem_nil, false_iff, not_and]
    rintro ⟨s, rfl⟩ hsv
    rw [Search_eq_searchN, NodeT.searchN, NodeT.findNode_append p s t.root, h] at hsv
    exact Option.noConfusion hsv
  · rw [HasPrefix_found t p h]
    have hwm : m.wfN = true := NodeT.findNode_wfN p t.root m hw h
    simp only [List.mem_append]
    constructor
    · rintro (hh | hm)
      · rcases hd : m.data with _ | d0
        · rw [hd] at hh
          simp at hh
        · rw [hd] at hh
          simp only [List.mem_singleton, Prod.mk.injEq] at hh
          obtain ⟨rfl, rfl⟩ := hh
          refine ⟨List.prefix_rfl, ?_⟩
          rw [Search_found t _ h, hd]
      · obtain ⟨s, hne, rfl, hs⟩ := (NodeT.mem_findResults m hwm p k v).1 hm
        refine ⟨⟨s, rfl⟩, ?_⟩
        rw [Search_eq_searchN, NodeT.searchN_append p s t.root m h]
        exact hs
    · rintro ⟨⟨s, rfl⟩, hsv⟩
      rw [Search_eq_searchN, NodeT.searchN_append p s t.root m h] at hsv
      cases s with
      | nil =>
        left
        rw [NodeT.searchN_nil] at hsv
        rw [hsv]
        simp
      | cons c q =>
        right
        exact (NodeT.mem_findResults m hwm p _ v).2 ⟨c :: q, by simp, by simp, hsv⟩

end Trie

/-! ### Node accounting under Insert -/

theorem mem_neprefixes (k : List Char) :
    ∀ p : List Char, p ∈ neprefixes k ↔ p ≠ [] ∧ p <+: k := by
  induction k with
  | nil =>
    intro p
    simp only [neprefixes, List.not_mem_nil, false_iff, not_and]
    intro hne hp
    exact hne (List.prefix_nil.1 hp)
  | cons c k ih =>
    intro p
    simp only [neprefixes, List.mem_cons, List.mem_map]
    constructor
    · rintro (rfl | ⟨q, hq, rfl⟩)
      · exact ⟨by simp, ⟨k, rfl⟩⟩
      · obtain ⟨hne, hpq⟩ := (ih q).1 hq
        exact ⟨by simp, (List.prefix_cons_inj c).2 hpq⟩
    · rintro ⟨hne, hp⟩
      cases p with
      | nil => exact absurd rfl hne
      | cons c' q =>
        obtain ⟨rfl, hq⟩ : c' = c ∧ q <+: k := by
          obtain ⟨s, hs⟩ := hp
          simp only [List.cons_append, List.cons.injEq] at hs
          exact ⟨hs.1, ⟨s, hs.2⟩⟩
        cases q with
        | nil => exact Or.inl rfl
        | cons c2 q2 =>
          exact Or.inr ⟨c2 :: q2, (ih _).2 ⟨by simp, hq⟩, rfl⟩

theorem neprefixes_ne_nil (k p : List Char) (h : p ∈ neprefixes k) : p ≠ [] :=
  ((mem_neprefixes k p).1 h).1

theorem neprefixes_nodup (k : List Char) : (neprefixes k).Nodup := by
  induction k with
  | nil => simp [neprefixes]
  | cons c k ih =>
    rw [neprefixes]
    refine List.Nodup.cons ?_ (ih.map fun a b h => by simpa using h)
    intro hmem
    obtain ⟨q, hq, heq⟩ := List.mem_map.1 hmem
    have : q = [] := by simpa using heq
    exact neprefixes_ne_nil k q hq this

/-- The number of nodes `insertN` creates is the number of positions of
the key whose node does not yet exist. -/
theorem NodeT.insertN_count {α : Type u} (d : Option α) :
    ∀ (k : List Char) (n : NodeT α),
      (n.insertN k d).2 =
        ((neprefixes k).filter (fun p => (n.findNode p).isNone)).length := by
  intro k
  induction k with
  | nil => intro n; rfl
  | cons c kr ih =>
    intro n
    rw [neprefixes, List.filter_cons]
    rcases hl : n.children.lookupC c with _ | child
    · rw [insertN_cons_none n kr d hl]
      have hhead : (n.findNode [c]).isNone = true := by
        rw [findNode_cons_none n [] hl]
        rfl
      rw [hhead, if_pos rfl]
      have hmap :
          ((neprefixes kr).map (fun p => c :: p)).filter
              (fun p => (n.findNode p).isNone) =
            ((neprefixes kr).filter fun q => (n.findNode (c :: q)).isNone).map
              (fun p => c :: p) := by
        exact List.filter_map (fun p => c :: p) (neprefixes kr)
      rw [hmap, List.length_cons, List.length_map]
      have hall : ((neprefixes kr).filter fun q => (n.findNode (c :: q)).isNone) =
          neprefixes kr := by
        refine List.filter_eq_self.2 fun q _ => ?_
        rw [findNode_cons_none n q hl]
        rfl
      rw [hall]
      have hempty : ((NodeT.mk .nil none : NodeT α).insertN kr d).2 =
          (neprefixes kr).length := by
        rw [ih (NodeT.mk .nil none)]
        have : ((neprefixes kr).filter fun p =>
            ((NodeT.mk (ChildList.nil : ChildList α) none).findNode p).isNone) =
            neprefixes kr := by
          refine List.filter_eq_self.2 fun q hq => ?_
          rw [findNode_empty_ne q none (neprefixes_ne_nil kr q hq)]
          rfl
        rw [this]
      rw [hempty]
    · rw [insertN_cons_some n kr d hl]
      have hhead : (n.findNode [c]).isNone = false := by
        rw [findNode_cons_some n [] hl, findNode_nil]
        rfl
      rw [hhead]
      simp only [Bool.false_eq_true, if_false]
      have hmap :
          ((neprefixes kr).map (fun p => c :: p)).filter
              (fun p => (n.findNode p).isNone) =
            ((neprefixes kr).filter fun q => (n.findNode (c :: q)).isNone).map
              (fun p => c :: p) := by
        exact List.filter_map (fun p => c :: p) (neprefixes kr)
      rw [hmap, List.length_map]
      have hcong : ((neprefixes kr).filter fun q => (n.findNode (c :: q)).isNone) =
          ((neprefixes kr).filter fun q => (child.findNode q).isNone) := by
        refine List.filter_congr fun q _ => ?_
        rw [findNode_cons_some n q hl]
      rw [hcong, ih child]

/-- A node exists after an insert exactly when it existed before or lies
on the inserted key's path. -/
theorem NodeT.findNode_insertN_isSome {α : Type u} (d : Option α) :
    ∀ (k p : List Char) (n : NodeT α),
      (((n.insertN k d).1).findNode p).isSome = true ↔
        ((n.findNode p).isSome = true ∨ p <+: k) := by
  intro k
  induction k with
  | nil =>
    intro p n
    rw [insertN_nil]
    cases p with
    | nil => simp [findNode_nil]
    | cons c q =>
      have hiff : (NodeT.mk n.children d).findNode (c :: q) = n.findNode (c :: q) := by
        rcases hl : n.children.lookupC c with _ | m
        · rw [findNode_cons_none _ q (by simpa [children_mk] using hl),
            findNode_cons_none n q hl]
        · rw [findNode_cons_some _ q (by simpa [children_mk] using hl),
            findNode_cons_some n q hl]
      rw [hiff]
      simp [List.prefix_nil]
  | cons c kr ih =>
    intro p n
    rcases hl : n.children.lookupC c with _ | child
    · rw [insertN_cons_none n kr d hl]
      cases p with
      | nil => simp [findNode_nil]
      | cons c' q =>
        by_cases hc : c' = c
        · subst hc
          rw [findNode_cons_some _ q
              (by simpa [children_mk] using
                ChildList.lookupC_setC_self c' _ n.children),
            findNode_cons_none n q hl]
          rw [ih q _]
          constructor
          · rintro (hq | hq)
            · cases q with
              | nil => exact Or.inr ⟨kr, rfl⟩
              | cons c2 q2 =>
                rw [findNode_empty_ne _ none (by simp)] at hq
                exact absurd hq (by simp)
            · exact Or.inr ((List.prefix_cons_inj c').2 hq)
          · rintro (hq | hq)
            · simp at hq
            · exact Or.inr ((List.prefix_cons_inj c').1 hq)
        · have hiff :
              (NodeT.mk (n.children.setC c ((NodeT.mk ChildList.nil none).insertN kr d).1)
                n.data).findNode (c' :: q) = n.findNode (c' :: q) := by
            rcases h4 : n.children.lookupC c' with _ | m
            · rw [findNode_cons_none _ q
                  (by simpa [children_mk] using
                    (ChildList.lookupC_setC_ne c' c _ n.children hc).trans h4),
                findNode_cons_none n q h4]
            · rw [findNode_cons_some _ q
                  (by simpa [children_mk] using
                    (ChildList.lookupC_setC_ne c' c _ n.children hc).trans h4),
                findNode_cons_some n q h4]
          rw [hiff]
          simp [List.cons_prefix_cons, hc]
    · rw [insertN_cons_some n kr d hl]
      cases p with
      | nil => simp [findNode_nil]
      | cons c' q =>
        by_cases hc : c' = c
        · subst hc
          rw [findNode_cons_some _ q
              (by simpa [children_mk] using
                ChildList.lookupC_setC_self c' _ n.children),
            findNode_cons_some n q hl]
          rw [ih q child]
          simp [List.prefix_cons_inj]
        · have hiff :
              (NodeT.mk (n.children.setC c (child.insertN kr d).1)
                n.data).findNode (c' :: q) = n.findNode (c' :: q) := by
            rcases h4 : n.children.lookupC c' with _ | m
            · rw [findNode_cons_none _ q
                  (by simpa [children_mk] using
                    (ChildList.lookupC_setC_ne c' c _ n.children hc).trans h4),
                findNode_cons_none n q h4]
            · rw [findNode_cons_some _ q
                  (by simpa [children_mk] using
                    (ChildList.lookupC_setC_ne c' c _ n.children hc).trans h4),
                findNode_cons_some n q h4]
          rw [hiff]
          simp [List.cons_prefix_cons, hc]

theorem positions_nil : positions [] = ∅ := rfl

theorem positions_cons (k : List Char) (ks : List (List Char)) :
    positions (k :: ks) = (neprefixes k).toFinset ∪ positions ks := rfl

theorem positions_append (xs ys : List (List Char)) :
    positions (xs ++ ys) = positions xs ∪ positions ys := by
  induction xs with
  | nil => rw [List.nil_append, positions_nil, Finset.empty_union]
  | cons x xs ih =>
    rw [List.cons_append, positions_cons, positions_cons, ih, Finset.union_assoc]

theorem mem_positions (ks : List (List Char)) (p : List Char) :
    p ∈ positions ks ↔ ∃ k ∈ ks, p ≠ [] ∧ p <+: k := by
  induction ks with
  | nil => simp [positions_nil]
  | cons k ks ih =>
    rw [positions_cons, Finset.mem_union, List.mem_toFinset, mem_neprefixes, ih]
    constructor
    · rintro (h | ⟨k', hk', h⟩)
      · exact ⟨k, List.mem_cons_self k ks, h⟩
      · exact ⟨k', List.mem_cons_of_mem k hk', h⟩
    · rintro ⟨k', hk', h⟩
      rcases List.mem_cons.1 hk' with rfl | hk'
      · exact Or.inl h
      · exact Or.inr ⟨k', hk', h⟩

/-- After a sequence of inserts into a fresh trie, a node exists exactly
for the root and the positions of the inserted keys. -/
theorem Trie.findNode_runInserts {α : Type u} (ks : List (List Char × Option α))
    (p : List Char) :
    (((Trie.run Trie.new (ks.map fun kd => Op.ins kd.1 kd.2)).root).findNode p).isSome
        = true ↔
      (p = [] ∨ p ∈ positions (ks.map Prod.fst)) := by
  induction ks using List.reverseRecOn with
  | nil =>
    cases p with
    | nil => simp [Trie.run, Trie.new, NodeT.findNode_nil]
    | cons c q =>
      rw [mem_positions]
      simp only [Trie.run, List.map_nil, List.foldl_nil]
      have : (Trie.new (α := α)).root.findNode (c :: q) = none := rfl
      simp [this]
  | append_singleton ks kd ih =>
    rw [List.map_append, Trie.run_append, List.map_cons, List.map_nil]
    have hstep :
        (Trie.run Trie.new (ks.map fun kd => Op.ins kd.1 kd.2)).run [Op.ins kd.1 kd.2] =
          (Trie.run Trie.new (ks.map fun kd => Op.ins kd.1 kd.2)).Insert kd.1 kd.2 := rfl
    rw [hstep, Trie.Insert_root, NodeT.findNode_insertN_isSome, ih,
      List.map_append, positions_append, List.map_cons, List.map_nil,
      positions_cons, positions_nil, Finset.union_empty]
    rw [Finset.mem_union, List.mem_toFinset, mem_neprefixes]
    by_cases hp : p = []
    · simp [hp]
    · simp only [hp, false_or, ne_eq, not_false_eq_true, true_and]

/-- The `nnum` counter after a sequence of inserts into a fresh trie: one
for the root plus one per distinct key position. -/
theorem Trie.NodeNum_runInserts {α : Type u} (ks : List (List Char × Option α)) :
    (Trie.run Trie.new (ks.map fun kd => Op.ins kd.1 kd.2)).NodeNum =
      1 + ((positions (ks.map Prod.fst)).card : Int) := by
  induction ks using List.reverseRecOn with
  | nil => simp [Trie.run, Trie.new, NodeNum, positions_nil]
  | append_singleton ks kd ih =>
    rw [List.map_append, Trie.run_append, List.map_cons, List.map_nil]
    have hstep :
        (Trie.run Trie.new (ks.map fun kd => Op.ins kd.1 kd.2)).run [Op.ins kd.1 kd.2] =
          (Trie.run Trie.new (ks.map fun kd => Op.ins kd.1 kd.2)).Insert kd.1 kd.2 := rfl
    rw [hstep]
    set t := Trie.run Trie.new (ks.map fun kd => Op.ins kd.1 kd.2) with ht
    have hnn : (t.Insert kd.1 kd.2).NodeNum =
        t.NodeNum + ((t.root.insertN kd.1 kd.2).2 : Int) := rfl
    rw [hnn, ih, NodeT.insertN_count]
    set P := positions (ks.map Prod.fst) with hP
    set N := (neprefixes kd.1).toFinset with hN
    have hlen :
        ((neprefixes kd.1).filter fun p => (t.root.findNode p).isNone).length =
          (N \ P).card := by
      have hcong :
          ((neprefixes kd.1).filter fun p => (t.root.findNode p).isNone) =
            ((neprefixes kd.1).filter fun p => decide (p ∉ P)) := by
        refine List.filter_congr fun p hp => ?_
        have hne : p ≠ [] := neprefixes_ne_nil kd.1 p hp
        rw [Bool.eq_iff_iff]
        simp only [Option.isNone_iff_eq_none, decide_eq_true_eq]
        rw [← Option.not_isSome_iff_eq_none, Trie.findNode_runInserts, ← hP]
        simp [hne]
      rw [hcong, ← List.toFinset_card_of_nodup ((neprefixes_nodup kd.1).filter _),
        List.toFinset_filter]
      congr 1
      ext x
      simp [hN]
    rw [hlen]
    rw [List.map_append, positions_append, List.map_cons, List.map_nil,
      positions_cons, positions_nil, Finset.union_empty, ← hP, ← hN]
    have hcard : (N \ P).card + P.card = (N ∪ P).card := Finset.card_sdiff_add_card N P
    have hcomm : N ∪ P = P ∪ N := Finset.union_comm N P
    rw [← hcomm]
    omega

/-! ### The claims -/

/-- C1.  Round-trip: for every key K (any sequence of code points,
including the empty string) and every value V other than the unset
sentinel (nil), calling Insert(K, V) and then Search(K) on the same
trie, with no intervening operations, returns V. -/
theorem trie_c1_round_trip (α : Type) (t : Trie α) (k : List Char) (v : α) :
    (t.Insert k (some v)).Search k = some v := by
  rw [Trie.Search_eq_searchN, Trie.Insert_root, NodeT.searchN_insertN, if_pos rfl]

/-- C2.  Delete semantics: Delete(K) returns true exactly when the node
for K exists and holds a value; when it returns false the trie state is
unchanged, including both counters.  After a successful Delete(K),
Search(K) returns absent and a second Delete(K) returns false.  (The
well-formedness hypothesis is the key-uniqueness of the Go children
map, which `Trie.wfN_run` shows holds in every reachable state.) -/
theorem trie_c2_delete_semantics (α : Type) (t : Trie α) (k : List Char) :
    ((t.Delete k).2 = true ↔ t.Search k ≠ none) ∧
    ((t.Delete k).2 = false → (t.Delete k).1 = t) ∧
    (t.root.wfN = true → (t.Delete k).2 = true →
      (t.Delete k).1.Search k = none ∧ (((t.Delete k).1).Delete k).2 = false) := by
  refine ⟨Trie.Delete_snd_iff t k, ?_, ?_⟩
  · intro hfail
    rcases h : t.root.deleteRoot k with _ | r
    · rw [Trie.Delete_fail t k h]
    · obtain ⟨n', cnt⟩ := r
      rw [Trie.Delete_succ t k h] at hfail
      exact absurd hfail (by simp)
  · intro hw hsucc
    rcases h : t.root.deleteRoot k with _ | r
    · rw [Trie.Delete_fail t k h] at hsucc
      exact absurd hsucc (by simp)
    · obtain ⟨n', cnt⟩ := r
      have hsearch : (t.Delete k).1.Search k = none := by
        rw [Trie.Delete_succ t k h, Trie.Search_eq_searchN]
        have := NodeT.searchN_deleteRoot k t.root n' cnt hw h k
        rw [if_pos rfl] at this
        exact this
      refine ⟨hsearch, ?_⟩
      have hne2 : ¬((t.Delete k).1.Delete k).2 = true := fun hh =>
        (Trie.Delete_snd_iff (t.Delete k).1 k).1 hh hsearch
      exact Bool.eq_false_iff.mpr hne2

/-- C2 witness: a concrete instance exercising every part. -/
theorem trie_c2_witness :
    ((Trie.new.Insert ['a'] (some 1)).Delete ['a']).2 = true ∧
    (((Trie.new.Insert ['a'] (some 1)).Delete ['a']).1.Search ['a'] = none) ∧
    ((((Trie.new.Insert ['a'] (some 1)).Delete ['a']).1.Delete ['a']).2 = false) ∧
    ((Trie.new (α := Nat)).Delete ['a']).1 = Trie.new := by
  have h := trie_c2_delete_semantics Nat (Trie.new.Insert ['a'] (some 1)) ['a']
  have hsucc : ((Trie.new.Insert ['a'] (some 1)).Delete ['a']).2 = true :=
    h.1.2 (by decide)
  have hrest := h.2.2 (by decide) hsucc
  have h2 := trie_c2_delete_semantics Nat Trie.new ['a']
  exact ⟨hsucc, hrest.1, hrest.2, h2.2.1 (by decide)⟩

/-- C3.  The code increments `size` on every Insert, so after
overwriting an existing key `Len` reports 2 while only one key holds a
value: the size-accounting claim fails on the code (the spec itself
flags this as a bug). -/
theorem trie_c3_overwrite_counter :
    ((Trie.new.Insert ['a'] (some 1)).Insert ['a'] (some 2)).Len = 2 ∧
    ((Trie.new.Insert ['a'] (some 1)).Insert ['a'] (some 2)).root.liveCount = 1 := by
  exact ⟨rfl, rfl⟩

/-- C4.  Prefix completeness: `HasPrefix p` contains exactly the stored
keys extending `p`, each with its current value, and is empty when no
node exists at `p`.  (Well-formedness is the Go-map key-uniqueness
invariant of every reachable state, `Trie.wfN_run`.) -/
theorem trie_c4_prefix_complete (α : Type) (t : Trie α) (hw : t.root.wfN = true)
    (p k : List Char) (v : α) :
    ((k, v) ∈ t.HasPrefix p ↔ (p <+: k ∧ t.Search k = some v)) ∧
    (t.root.findNode p = none → t.HasPrefix p = []) := by
  exact ⟨Trie.mem_HasPrefix t hw p k v, fun h => Trie.HasPrefix_missing t p h⟩

/-- C4 witness: the README's test data. -/
theorem trie_c4_witness :
    (['f','o','o'], 11) ∈
      (((Trie.new.Insert ['f','o','o'] (some 11)).Insert
        ['f','o','o','b','a','r'] (some 111)).Insert
        ['b','a','r'] (some 22)).HasPrefix ['f'] ∧
    (((Trie.new.Insert ['f','o','o'] (some (11 : Nat))).Insert
        ['f','o','o','b','a','r'] (some 111)).Insert
        ['b','a','r'] (some 22)).HasPrefix ['x'] = [] := by
  have h1 := (trie_c4_prefix_complete Nat
    (((Trie.new.Insert ['f','o','o'] (some 11)).Insert
      ['f','o','o','b','a','r'] (some 111)).Insert
      ['b','a','r'] (some 22)) (by decide) ['f'] ['f','o','o'] 11).1.2
    ⟨⟨['o','o'], rfl⟩, by decide⟩
  have h2 := (trie_c4_prefix_complete Nat
    (((Trie.new.Insert ['f','o','o'] (some 11)).Insert
      ['f','o','o','b','a','r'] (some 111)).Insert
      ['b','a','r'] (some 22)) (by decide) ['x'] ['x'] 0).2 rfl
  exact ⟨h1, h2⟩

/-- C5 counterexample: inserting the nil sentinel creates a childless,
valueless, non-root node that persists, so the claim fails as stated
for sequences that insert nil payloads. -/
theorem trie_c5_counterexample :
    (Trie.run Trie.new [Op.ins ['a'] (none : Option Nat)]).root.prunedN = false ∧
    (Trie.run Trie.new [Op.ins ['a'] (none : Option Nat)]).root.children.lookupC 'a' =
      some (NodeT.mk .nil none) := by
  exact ⟨rfl, rfl⟩

/-- C5 (amended).  Structural pruning invariant: after every sequence of
public operations whose Inserts all carry a real (non-nil) payload,
every node reachable from the root is either the root, holds a value,
or has at least one child; the root itself always persists. -/
theorem trie_c5_pruned (α : Type) (ops : List (Op α))
    (hops : ∀ op ∈ ops, op.hasPayload = true) :
    (Trie.run Trie.new ops).root.prunedN = true :=
  Trie.prunedN_run ops Trie.new hops Trie.prunedN_new

/-- C5 witness: a mixed insert/delete history. -/
theorem trie_c5_witness :
    (Trie.run Trie.new
      [Op.ins ['a','b'] (some (1 : Nat)), Op.ins ['a'] (some 2),
        Op.del ['a','b'], Op.ins [] (some 3)]).root.prunedN = true := by
  exact trie_c5_pruned Nat
    [Op.ins ['a','b'] (some 1), Op.ins ['a'] (some 2),
      Op.del ['a','b'], Op.ins [] (some 3)] (by decide)

/-- C6.  Node accounting: after inserting any keys into a new trie,
`NodeNum` equals 1 (root) plus the number of distinct code-point
positions across the inserted keys' paths (shared prefixes counted
once); and a successful Delete decreases `NodeNum` by exactly the
number of nodes removed from the structure by ancestor pruning. -/
theorem trie_c6_node_accounting :
    (∀ (α : Type) (ks : List (List Char × Option α)),
      (Trie.run Trie.new (ks.map fun kd => Op.ins kd.1 kd.2)).NodeNum =
        1 + ((positions (ks.map Prod.fst)).card : Int)) ∧
    (∀ (α : Type) (t : Trie α) (k : List Char), (t.Delete k).2 = true →
      (t.Delete k).1.NodeNum =
        t.NodeNum - ((t.root.nodeCountN : Int) - ((t.Delete k).1.root.nodeCountN : Int))) := by
  refine ⟨fun α ks => Trie.NodeNum_runInserts ks, fun α t k hsucc => ?_⟩
  rcases h : t.root.deleteRoot k with _ | r
  · rw [Trie.Delete_fail t k h] at hsucc
    exact absurd hsucc (by simp)
  · obtain ⟨n', cnt⟩ := r
    have hcount := NodeT.nodeCountN_deleteRoot k t.root n' cnt h
    rw [Trie.Delete_succ t k h]
    simp only [Trie.NodeNum]
    omega

/-- C6 witness: the README's test data, then deleting "foobar". -/
theorem trie_c6_witness :
    (Trie.run Trie.new (([(['f','o','o'], some (11 : Nat)), (['f','o','o','b','a','r'], some 111), (['b','a','r'], some 22)] : List (List Char × Option Nat)).map fun kd => Op.ins kd.1 kd.2)).NodeNum =
      1 + ((positions (([(['f','o','o'], some (11 : Nat)), (['f','o','o','b','a','r'], some 111), (['b','a','r'], some 22)] : List (List Char × Option Nat)).map Prod.fst)).card : Int) ∧
    (((Trie.new.Insert ['f','o','o'] (some (11 : Nat))).Insert ['f','o','o','b','a','r'] (some 111)).Delete ['f','o','o','b','a','r']).1.NodeNum =
      ((Trie.new.Insert ['f','o','o'] (some (11 : Nat))).Insert ['f','o','o','b','a','r'] (some 111)).NodeNum -
        (((((Trie.new.Insert ['f','o','o'] (some (11 : Nat))).Insert ['f','o','o','b','a','r'] (some 111)).root.nodeCountN : Int)) -
          (((((Trie.new.Insert ['f','o','o'] (some (11 : Nat))).Insert ['f','o','o','b','a','r'] (some 111)).Delete ['f','o','o','b','a','r']).1.root.nodeCountN : Int))) := by
  exact ⟨trie_c6_node_accounting.1 Nat [(['f','o','o'], some (11 : Nat)), (['f','o','o','b','a','r'], some 111), (['b','a','r'], some 22)],
    trie_c6_node_accounting.2 Nat ((Trie.new.Insert ['f','o','o'] (some (11 : Nat))).Insert ['f','o','o','b','a','r'] (some 111)) ['f','o','o','b','a','r'] (by decide)⟩

/-- C7.  Frame property: mutating one key with Insert or Delete never
changes the value observed at any other key.  (Well-formedness is the
Go-map key-uniqueness invariant of every reachable state,
`Trie.wfN_run`.) -/
theorem trie_c7_frame (α : Type) (t : Trie α) (k k' : List Char) (d : Option α)
    (hw : t.root.wfN = true) (hne : k' ≠ k) :
    (t.Insert k d).Search k' = t.Search k' ∧
    ((t.Delete k).1).Search k' = t.Search k' := by
  constructor
  · rw [Trie.Search_eq_searchN, Trie.Insert_root, NodeT.searchN_insertN, if_neg hne,
      Trie.Search_eq_searchN]
  · rcases h : t.root.deleteRoot k with _ | r
    · rw [Trie.Delete_fail t k h]
    · obtain ⟨n', cnt⟩ := r
      rw [Trie.Delete_succ t k h, Trie.Search_eq_searchN, Trie.Search_eq_searchN]
      have := NodeT.searchN_deleteRoot k t.root n' cnt hw h k'
      rw [if_neg hne] at this
      exact this

/-- C7 witness. -/
theorem trie_c7_witness :
    (((Trie.new.Insert ['f','o','o'] (some (11 : Nat))).Insert
        ['b','a','r'] (some 22)).Insert ['f','o','o'] (some 99)).Search ['b','a','r'] =
      ((Trie.new.Insert ['f','o','o'] (some (11 : Nat))).Insert
        ['b','a','r'] (some 22)).Search ['b','a','r'] ∧
    ((((Trie.new.Insert ['f','o','o'] (some (11 : Nat))).Insert
        ['b','a','r'] (some 22)).Delete ['f','o','o']).1).Search ['b','a','r'] =
      ((Trie.new.Insert ['f','o','o'] (some (11 : Nat))).Insert
        ['b','a','r'] (some 22)).Search ['b','a','r'] := by
  have h := trie_c7_frame Nat
    ((Trie.new.Insert ['f','o','o'] (some (11 : Nat))).Insert ['b','a','r'] (some 22))
    ['f','o','o'] ['b','a','r'] (some 99) (by decide) (by decide)
  exact h

/-- C8.  Empty key targets the root: on a new empty trie Search("") is
absent and Delete("xyz") fails; after Insert("", 1234), Search("")
returns 1234 and HasPrefix("") includes the pair ("", 1234). -/
theorem trie_c8_empty_key :
    (Trie.new (α := Nat)).Search [] = none ∧
    ((Trie.new (α := Nat)).Delete ['x','y','z']).2 = false ∧
    (Trie.new.Insert [] (some (1234 : Nat))).Search [] = some 1234 ∧
    ([], (1234 : Nat)) ∈ (Trie.new.Insert [] (some (1234 : Nat))).HasPrefix [] := by
  refine ⟨rfl, rfl, rfl, ?_⟩
  decide

/-- C9.  Unset-sentinel behaviour: after Insert(K, nil), Search(K) is
the same "absent" result as for a never-inserted key, Delete(K) fails,
and HasPrefix of any prefix of K does not list K.  (Well-formedness is
the Go-map key-uniqueness invariant of every reachable state,
`Trie.wfN_run`.) -/
theorem trie_c9_nil_sentinel (α : Type) (t : Trie α) (k p : List Char)
    (hw : t.root.wfN = true) (_hp : p <+: k) :
    (t.Insert k none).Search k = none ∧
    ((t.Insert k none).Delete k).2 = false ∧
    ∀ v : α, (k, v) ∉ (t.Insert k none).HasPrefix p := by
  have hsearch : (t.Insert k none).Search k = none := by
    rw [Trie.Search_eq_searchN, Trie.Insert_root, NodeT.searchN_insertN, if_pos rfl]
  have hwf : (t.Insert k none).root.wfN = true := by
    rw [Trie.Insert_root]
    exact NodeT.wfN_insertN k none t.root hw
  refine ⟨hsearch, ?_, ?_⟩
  · have hne2 : ¬((t.Insert k none).Delete k).2 = true := fun hh =>
      (Trie.Delete_snd_iff (t.Insert k none) k).1 hh hsearch
    exact Bool.eq_false_iff.mpr hne2
  · intro v hmem
    have := (Trie.mem_HasPrefix (t.Insert k none) hwf p k v).1 hmem
    rw [hsearch] at this
    exact Option.noConfusion this.2

/-- C9 witness. -/
theorem trie_c9_witness :
    ((Trie.new.Insert ['a','b'] (none : Option Nat)).Search ['a','b'] = none) ∧
    (((Trie.new.Insert ['a','b'] (none : Option Nat)).Delete ['a','b']).2 = false) ∧
    ((['a','b'], (7 : Nat)) ∉ (Trie.new.Insert ['a','b'] (none : Option Nat)).HasPrefix ['a']) := by
  have h := trie_c9_nil_sentinel Nat Trie.new ['a','b'] ['a'] (by decide) ⟨['b'], rfl⟩
  exact ⟨h.1, h.2.1, h.2.2 7⟩
